import Mathlib

/-!
Verification of the hf-papers-zh-tw pipeline core.

Shallow embedding of the PDF-extraction / reassembly / translation pipeline:
`src/translate.py`, `src/parse_pdf.py`, `src/download_pdf.py`,
`src/build_site.py` and `src/main.py`.  Pure data transformations are
translated to Lean functions; remote calls and filesystem state are passed in
explicitly as values (`Except` for calls that may raise, `Option` for files
that may be absent).
-/

namespace HfPapers

/-! ## translate.py -/

/-- `SEP = "|||SEG|||"` from translate.py. -/
def SEP : String := "|||SEG|||"

/-- `BATCH_LIMIT = 3000` from `translate_paper_content`. -/
def BATCH_LIMIT : Nat := 3000

/-- `translatable_types = {"text", "section", "title", "caption", "footnote"}`. -/
def translatableTypes : List String := ["text", "section", "title", "caption", "footnote"]

/-- A content element as consumed by `translate_paper_content`: its `type` and `text` fields. -/
structure TElem where
  type : String
  text : String
deriving DecidableEq

/-- The batching loop of `translate_paper_content` (lines 52-74): accumulate
texts into `batch` while the running character count stays within
`BATCH_LIMIT`; flush the batch when adding the next text would exceed the
limit and the batch is nonempty; flush the remainder at the end
(`flush_batch` does nothing on an empty batch). -/
def chunkGo : List String → Nat → List String → List (List String)
  | batch, _, [] => if batch.isEmpty then [] else [batch]
  | batch, chars, t :: ts =>
    if chars + t.length > BATCH_LIMIT ∧ batch ≠ [] then
      batch :: chunkGo [t] t.length ts
    else
      chunkGo (batch ++ [t]) (chars + t.length) ts

/-- The batches of texts sent to `_translate_batch` by `translate_paper_content`:
the texts of the translatable elements, in order, chunked by `chunkGo`. -/
def batchesOf (elements : List TElem) : List (List String) :=
  chunkGo [] 0 ((elements.filter (fun e => translatableTypes.contains e.type)).map (·.text))

/-- `_translate_batch` response post-processing (translate.py lines 124-130):
split the remote response on `SEP` and strip each part. -/
def batchParts (content : String) : List String :=
  (content.splitOn SEP).map String.trim

/-- The length adjustment of `_translate_batch` (translate.py lines 126-130):
pad a short split with the original texts at the missing tail positions
(`parts += texts[len(parts):]`), then truncate to `len(texts)`
(`parts[: len(texts)]`). -/
def padTruncate (texts parts : List String) : List String :=
  let parts2 := if parts.length < texts.length then parts ++ texts.drop parts.length else parts
  parts2.take texts.length

/-- `_translate_batch` as a function of its input `texts` and the remote
response `content`: returns `[]` for empty input without calling the remote,
otherwise splits the response on `SEP`, strips the parts, pads a short split
with the original texts and truncates to `len(texts)`. -/
def translateBatchPost (texts : List String) (content : String) : List String :=
  if texts.isEmpty then []
  else padTruncate texts (batchParts content)

/-! ## parse_pdf.py : _crop_image -/

/-- Result of `_crop_image`: either the full page PNG (degenerate clamped box)
or a crop at the clamped coordinates. -/
inductive CropOut where
  | fullPage
  | cropped (x1 y1 x2 y2 : Int)
deriving DecidableEq

/-- `_crop_image` (parse_pdf.py lines 35-47) on an image of size `w × h` and a
bounding-box list.  `int(bbox[i])` raises `IndexError` when the list has fewer
than four entries, modelled by `none`; otherwise the coordinates are clamped
and a degenerate clamped box falls back to the full page. -/
def cropImage (w h : Nat) (bbox : List Int) : Option CropOut :=
  match bbox with
  | x1 :: y1 :: x2 :: y2 :: _ =>
    let x1c := max 0 x1
    let y1c := max 0 y1
    let x2c := min (w : Int) x2
    let y2c := min (h : Int) y2
    if x2c ≤ x1c ∨ y2c ≤ y1c then some CropOut.fullPage
    else some (CropOut.cropped x1c y1c x2c y2c)
  | _ => none

/-! ## parse_pdf.py : page parsing -/

/-- A raw OCR record, with the optional fields read by `parse_pdf` via
`elem.get("category", "Text")`, `elem.get("bbox", [])`, `elem.get("text", "")`. -/
structure RawElem where
  category : Option String
  bbox : List Int
  text : Option String
deriving DecidableEq

/-- `CATEGORY_TYPE_MAP.get(category)`: `none` both for the categories mapped to
`None` (Page-header / Page-footer) and for unknown categories. -/
def categoryTypeMap (c : String) : Option String :=
  if c = "Title" then some "title"
  else if c = "Section-header" then some "section"
  else if c = "Text" then some "text"
  else if c = "Table" then some "table"
  else if c = "Formula" then some "formula"
  else if c = "Caption" then some "caption"
  else if c = "Footnote" then some "footnote"
  else if c = "List-item" then some "text"
  else if c = "Picture" then some "image"
  else none

/-- A structured content element produced by `parse_pdf`. -/
inductive Elem where
  | image (name : String) (page : Nat)
  | content (type : String) (text : String) (page : Nat)
deriving DecidableEq

/-- Decimal digit character, as produced by Python string formatting. -/
def digitChar : Nat → Char
  | 0 => '0' | 1 => '1' | 2 => '2' | 3 => '3' | 4 => '4'
  | 5 => '5' | 6 => '6' | 7 => '7' | 8 => '8' | _ => '9'

/-- Numeric value of a list of decimal digit characters (`int(...)`). -/
def digitsVal (ds : List Char) : Nat :=
  ds.foldl (fun a c => a * 10 + (c.toNat - 48)) 0

/-- Decimal digits of `n`, most significant first (fuelled; `fuel > n` suffices). -/
def natDigitsGo : Nat → Nat → List Char
  | 0, _ => []
  | fuel + 1, n =>
    if n < 10 then [digitChar n]
    else natDigitsGo fuel (n / 10) ++ [digitChar (n % 10)]

/-- Decimal digits of `n`, most significant first. -/
def natDigits (n : Nat) : List Char := natDigitsGo (n + 1) n

/-- Decimal rendering of `n`, as Python `str(n)` / f-string interpolation. -/
def natStr (n : Nat) : String := String.mk (natDigits n)

/-- Figure filename `f"p{page_num + 1}_fig{fig_count}.png"` from parse_pdf.py line 147. -/
def figName (pageNum1 figCount : Nat) : String :=
  String.mk ('p' :: natDigits pageNum1 ++ "_fig".toList ++ natDigits figCount ++ ".png".toList)

/-- The per-page element loop of `parse_pdf` (lines 133-167): skip non-dict
records (`none`), map the category, skip unmapped categories, build image
elements (incrementing the document-wide figure counter; a malformed bbox
makes `_crop_image` raise inside the `try`, skipping the element but keeping
the incremented counter), and build text elements from nonempty stripped text.
Returns the updated figure counter and the elements appended for this page. -/
def processRawElems (pageNum1 : Nat) : Nat → List (Option RawElem) → Nat × List Elem
  | fc, [] => (fc, [])
  | fc, none :: rest => processRawElems pageNum1 fc rest
  | fc, some e :: rest =>
    match categoryTypeMap (e.category.getD "Text") with
    | none => processRawElems pageNum1 fc rest
    | some t =>
      if t = "image" then
        if e.bbox.isEmpty then processRawElems pageNum1 fc rest
        else if e.bbox.length < 4 then processRawElems pageNum1 (fc + 1) rest
        else
          let r := processRawElems pageNum1 (fc + 1) rest
          (r.1, Elem.image (figName pageNum1 (fc + 1)) pageNum1 :: r.2)
      else if ((e.text.getD "").trim = "") then processRawElems pageNum1 fc rest
      else
        let r := processRawElems pageNum1 fc rest
        (r.1, Elem.content t ((e.text.getD "").trim) pageNum1 :: r.2)

/-- A PyMuPDF text block as used by `_fallback_parse_page`: bounding box
`block[:4]`, text `block[4]`, and block type `block[6]` (0 = text). -/
structure FBlock where
  x0 : Int
  y0 : Int
  x1 : Int
  y1 : Int
  text : String
  btype : Nat
deriving DecidableEq

/-- `_fallback_parse_page` (parse_pdf.py lines 87-100): keep type-0 blocks with
nonempty stripped text as `"Text"` records. -/
def fallbackParsePage (blocks : List FBlock) : List (Option RawElem) :=
  (blocks.filter (fun b => b.btype == 0 && !(b.text.trim == ""))).map
    (fun b => some { category := some "Text", bbox := [b.x0, b.y0, b.x1, b.y1], text := some b.text.trim })

/-- Input for one PDF page: the outcome of `_call_dotsocr` on its rendered
image (raising modelled by `Except.error`) and the PyMuPDF text blocks
available to the fallback extractor. -/
structure PageInput where
  ocr : Except Unit (List (Option RawElem))
  blocks : List FBlock

/-- The per-page try/except of `parse_pdf` (lines 127-131): the OCR element
list alone on success, `_fallback_parse_page`'s blocks alone on exception. -/
def pageRawElements (ocr : Except Unit (List (Option RawElem))) (blocks : List FBlock) :
    List (Option RawElem) :=
  match ocr with
  | .ok l => l
  | .error _ => fallbackParsePage blocks

/-- The page loop of `parse_pdf` (lines 122-167): thread the document-wide
figure counter through the pages in order, concatenating per-page elements.
`pn` is the 0-based page index (`page_num`). -/
def parsePdfLoop : Nat → Nat → List PageInput → Nat × List Elem
  | fc, _, [] => (fc, [])
  | fc, pn, p :: ps =>
    let step := processRawElems (pn + 1) fc (pageRawElements p.ocr p.blocks)
    let rest := parsePdfLoop step.1 (pn + 1) ps
    (rest.1, step.2 ++ rest.2)

/-- All structured elements produced by one `parse_pdf` run (no cache hit). -/
def parsePdfElems (pages : List PageInput) : List Elem := (parsePdfLoop 0 0 pages).2

/-- The figure filenames among a list of elements, in order. -/
def figNames (elems : List Elem) : List String :=
  elems.filterMap (fun e => match e with | .image n _ => some n | .content _ _ _ => none)

/-- Auxiliary for the uniqueness proof: recover the document-wide figure
counter from a `figName`-shaped filename (the digit run after `_fig`). -/
def fcOfName (s : String) : Nat :=
  digitsVal ((((s.toList.drop 1).dropWhile Char.isDigit).drop 4).takeWhile Char.isDigit)

/-! ## Cache gates (parse_pdf.py, translate.py, download_pdf.py) -/

/-- The cache gate of `parse_pdf` (lines 108-111): if `parsed.json` exists its
parsed content is returned and no remote call happens (second component
`false`); otherwise the document is parsed (remote used, `true`). -/
def parsePdfStage (cache : Option (List Elem)) (pages : List PageInput) : List Elem × Bool :=
  match cache with
  | some cached => (cached, false)
  | none => (parsePdfElems pages, true)

/-- The cache gate of `translate_paper_content` (lines 41-44): presence of
`translated.json` alone short-circuits the translation. -/
def translateStage (cache : Option (List TElem)) (computed : List TElem) : List TElem × Bool :=
  match cache with
  | some cached => (cached, false)
  | none => (computed, true)

/-- The cache condition of `download_pdf` (line 18):
`pdf_path.exists() and pdf_path.stat().st_size > 1024`. -/
def downloadCacheHit (fileSize : Option Nat) : Bool :=
  match fileSize with
  | some sz => decide (1024 < sz)
  | none => false

/-- `download_pdf` as a function of the cached file state and the outcome of
the remote fetch (`none` = the download failed and the function returns
`None`).  Second component: whether the remote was contacted. -/
def downloadPdfStage (fileSize : Option Nat) (fetch : Option Unit) : Option Unit × Bool :=
  if downloadCacheHit fileSize then (some (), false) else (fetch, true)

/-! ## build_site.py : _insert_pdf_figures_inline -/

/-- Python's `\s` (unicode whitespace), as used by the caption regex. -/
def isPySpace (c : Char) : Bool :=
  c = ' ' || c = '\t' || c = '\n' || c = '\r' || c = '\x0b' || c = '\x0c' ||
  ('\x1c' ≤ c && c ≤ '\x1f') || c = '\x85' || c = '\xa0' || c = '\u1680' ||
  ('\u2000' ≤ c && c ≤ '\u200a') || c = '\u2028' || c = '\u2029' ||
  c = '\u202f' || c = '\u205f' || c = '\u3000'

/-- Case-insensitive literal matcher: consume `pat` from the front of `cs`
(`re.IGNORECASE` comparison), returning the remainder on success. -/
def matchLit : List Char → List Char → Option (List Char)
  | [], cs => some cs
  | _ :: _, [] => none
  | p :: ps, c :: cs => if c.toLower = p.toLower then matchLit ps cs else none

/-- Optional literal (`(?:pat)?`, greedy): consume `pat` if it is there. -/
def matchOptLit (pat : List Char) (cs : List Char) : List Char :=
  match matchLit pat cs with
  | some rest => rest
  | none => cs

/-- `\s+` (greedy): at least one whitespace character. -/
def matchSpaces1 (cs : List Char) : Option (List Char) :=
  match cs with
  | c :: rest => if isPySpace c then some (rest.dropWhile isPySpace) else none
  | [] => none

/-- `(\d+)` (greedy): at least one digit, captured as its numeric value. -/
def matchDigits1 (cs : List Char) : Option (Nat × List Char) :=
  let ds := cs.takeWhile Char.isDigit
  if ds.isEmpty then none else some (digitsVal ds, cs.dropWhile Char.isDigit)

/-- The tail of the caption pattern after the keyword:
`\s+(\d+)\.?(?:</strong>)?`. -/
def matchAfterKw (cs : List Char) : Option (Nat × List Char) :=
  match matchSpaces1 cs with
  | none => none
  | some cs1 =>
    match matchDigits1 cs1 with
    | none => none
    | some (n, cs2) => some (n, matchOptLit "</strong>".toList (matchOptLit ".".toList cs2))

/-- Ordered alternation `(?:Figure|Fig\.?|圖)` followed by `matchAfterKw`, with
the regex backtracking order (`Fig\.?` greedy tries `Fig.` before `Fig`). -/
def tryKws : List (List Char) → List Char → Option (Nat × List Char)
  | [], _ => none
  | kw :: kws, cs =>
    match matchLit kw cs with
    | some cs1 =>
      match matchAfterKw cs1 with
      | some r => some r
      | none => tryKws kws cs
    | none => tryKws kws cs

/-- The ordered keyword alternatives of the caption pattern. -/
def captionKws : List (List Char) := ["Figure".toList, "Fig.".toList, "Fig".toList, "圖".toList]

/-- One attempt of the caption pattern
`<p>(?:<strong>)?(?:Figure|Fig\.?|圖)\s+(\d+)\.?(?:</strong>)?` (IGNORECASE)
at the front of `cs`: the captured number and the remainder after the match. -/
def matchCaption (cs : List Char) : Option (Nat × List Char) :=
  match matchLit "<p>".toList cs with
  | none => none
  | some cs0 => tryKws captionKws (matchOptLit "<strong>".toList cs0)

/-- `re.match(r"fig(\d+)\.", name, re.IGNORECASE)` of build_site.py line 51:
anchored at the start of the filename. -/
def figNum? (name : String) : Option Nat :=
  match matchLit "fig".toList name.toList with
  | none => none
  | some cs =>
    match matchDigits1 cs with
    | none => none
    | some (n, rest) =>
      match rest with
      | '.' :: _ => some n
      | _ => none

/-- `fig_map.get(n)`: the value stored for key `n`. -/
def dictGet? (m : List (Nat × String)) (k : Nat) : Option String :=
  (m.find? (fun p => p.1 == k)).map (·.2)

/-- Python dict assignment `fig_map[n] = name`: overwrite in place, or append. -/
def dictInsert (m : List (Nat × String)) (k : Nat) (v : String) : List (Nat × String) :=
  if m.any (fun p => p.1 == k) then
    m.map (fun p => if p.1 == k then (k, v) else p)
  else m ++ [(k, v)]

/-- The `fig_map` construction of `_insert_pdf_figures_inline` (lines 49-53):
each figure name matching `fig(\d+)\.` is keyed by its number. -/
def figMapOf (figures : List String) : List (Nat × String) :=
  figures.foldl
    (fun m name =>
      match figNum? name with
      | some n => dictInsert m n name
      | none => m) []

/-- The inline image markup inserted before a caption (lines 66-70). -/
def imgTag (base fname : String) (n : Nat) : String :=
  "<figure class=\"paper-figure\"><img src=\"" ++ base ++ fname ++
    "\" loading=\"lazy\" alt=\"Figure " ++ natStr n ++ "\"></figure>\n"

/-- A gallery figure entry (lines 89-93). -/
def galleryFig (base fname : String) : String :=
  "<figure class=\"paper-figure\"><img src=\"" ++ base ++ fname ++
    "\" loading=\"lazy\" alt=\"" ++ fname ++ "\"></figure>"

/-- The gallery block opening (line 87). -/
def galleryHeader : String :=
  "<hr><h2>圖表</h2><div class=\"figures-gallery\">"

/-- `pattern.sub(_replace_caption, content_html)` (lines 58-82): scan left to
right for non-overlapping caption matches; at each match with number `n`, if
`fig_map` has a (truthy) name for `n` not yet inserted, record `n` and emit
the image markup before the matched text, else emit the matched text
unchanged.  Fuelled; one unit of fuel per character consumed, so
`fuel = cs.length` is exact. -/
def subCaptionsGo (figMap : List (Nat × String)) (base : String) :
    Nat → List Nat → List Char → List Nat × List Char
  | 0, ins, cs => (ins, cs)
  | _ + 1, ins, [] => (ins, [])
  | fuel + 1, ins, c :: cs =>
    match matchCaption (c :: cs) with
    | some (n, rest) =>
      let span := (c :: cs).take ((c :: cs).length - rest.length)
      let step :=
        match dictGet? figMap n with
        | some fname =>
          if fname != "" && !ins.contains n then
            (ins ++ [n], (imgTag base fname n).toList ++ span)
          else (ins, span)
        | none => (ins, span)
      let r := subCaptionsGo figMap base fuel step.1 rest
      (r.1, step.2 ++ r.2)
    | none =>
      let r := subCaptionsGo figMap base fuel ins cs
      (r.1, c :: r.2)

/-- The caption substitution pass, starting from inserted set `ins`. -/
def subCaptionsFrom (figMap : List (Nat × String)) (base : String) (ins : List Nat)
    (cs : List Char) : List Nat × List Char :=
  subCaptionsGo figMap base cs.length ins cs

/-- `sorted(fig_map)`: the keys of the map in ascending order. -/
def sortKeys (m : List (Nat × String)) : List Nat :=
  List.insertionSort (· ≤ ·) (m.map Prod.fst)

/-- The figure numbers with no matched caption, ascending (line 85). -/
def missingNumsOf (figMap : List (Nat × String)) (ins : List Nat) : List Nat :=
  (sortKeys figMap).filter (fun n => !ins.contains n)

/-- `missing = [fig_map[n] for n in sorted(fig_map) if n not in inserted]`. -/
def missingOf (figMap : List (Nat × String)) (ins : List Nat) : List String :=
  (missingNumsOf figMap ins).map (fun n => (dictGet? figMap n).getD "")

/-- `_insert_pdf_figures_inline` (build_site.py lines 41-96). -/
def insertPdfFiguresInline (contentHtml : String) (figures : List String)
    (figuresBase : String) : String :=
  let figMap := figMapOf figures
  if figMap.isEmpty then contentHtml
  else
    let scanned := subCaptionsFrom figMap figuresBase [] contentHtml.toList
    let missing := missingOf figMap scanned.1
    if missing.isEmpty then String.mk scanned.2
    else
      String.mk scanned.2 ++ galleryHeader ++
        String.join (missing.map (galleryFig figuresBase)) ++ "</div>"

/-- The `inserted` set after the substitution pass over `contentHtml`. -/
def insertedOf (contentHtml : String) (figures : List String) (figuresBase : String) :
    List Nat :=
  (subCaptionsFrom (figMapOf figures) figuresBase [] contentHtml.toList).1

/-- The substituted main content (before any gallery is appended). -/
def scanOutOf (contentHtml : String) (figures : List String) (figuresBase : String) :
    List Char :=
  (subCaptionsFrom (figMapOf figures) figuresBase [] contentHtml.toList).2

/-- No caption match numbered `K` starts inside `pre` when the text continues
with `cap` (captions carrying other numbers may well occur in `pre`). -/
def noCaptionKStart (K : Nat) (pre cap : List Char) : Prop :=
  ∀ i, i < pre.length → (matchCaption (pre.drop i ++ cap)).map Prod.fst ≠ some K

instance (K : Nat) (pre cap : List Char) : Decidable (noCaptionKStart K pre cap) := by
  unfold noCaptionKStart; infer_instance

/-! ## main.py : per-paper pipeline -/

/-- The dict returned by `parse_arxiv_html`. -/
structure Parsed where
  markdown : String
  figures : List String
  source : String
deriving DecidableEq

/-- The fields of a paper dict touched by `process_paper` and read by the
site builder. -/
structure Paper where
  arxivId : String
  contentMdZh : Option String := none
  figures : List String := []
  parseSource : Option String := none
deriving DecidableEq

/-- The outcomes of the external steps for one paper: `parse_arxiv_html`
(may raise, may return `None`), `download_pdf` (returns `None` on failure),
`parse_pdf` (may raise) and `translate_markdown` (may raise). -/
structure PaperInput where
  paper : Paper
  parseHtml : Except Unit (Option Parsed)
  download : Option Unit
  parsePdfRes : Except Unit (List Elem)
  translateRes : Except Unit String

/-- `process_paper` (main.py lines 59-100).  Note: when `parse_pdf` succeeds,
line 87 executes `parsed.get("markdown", "")` on the returned *list*, which
raises `AttributeError`; that exception propagates to the per-paper boundary
in `run`, modelled by `Except.error`. -/
def processPaper (inp : PaperInput) : Except Unit Paper :=
  match inp.parseHtml with
  | .error e => .error e
  | .ok none =>
    match inp.download with
    | none => .ok { inp.paper with contentMdZh := some "", figures := [] }
    | some _ =>
      match inp.parsePdfRes with
      | .error _ => .ok { inp.paper with contentMdZh := some "", figures := [] }
      | .ok _ => .error ()
  | .ok (some parsed) =>
    let p1 := { inp.paper with figures := parsed.figures, parseSource := some parsed.source }
    if parsed.markdown = "" then .ok { p1 with contentMdZh := some "" }
    else
      match inp.translateRes with
      | .ok zh => .ok { p1 with contentMdZh := some zh }
      | .error _ => .ok { p1 with contentMdZh := some parsed.markdown }

/-- The per-paper boundary in `run` (main.py lines 122-128): a raised
exception is caught and the original paper dict is carried forward. -/
def runPaper (inp : PaperInput) : Paper :=
  match processPaper inp with
  | .ok p => p
  | .error _ => inp.paper

/-- The whole batch: one output paper per input paper. -/
def runBatch (inps : List PaperInput) : List Paper := inps.map runPaper

/-- The content body the site builder renders for a paper: `content_md_zh`
when present (an empty string renders an empty body). -/
def bodyOf (p : Paper) : String := p.contentMdZh.getD ""

/-! ## Lemmas: decimal rendering and figure-name injectivity -/

theorem digitChar_toNat : ∀ n, n < 10 → (digitChar n).toNat = 48 + n := by decide

theorem digitChar_isDigit : ∀ n, n < 10 → (digitChar n).isDigit = true := by decide

theorem natDigitsGo_isDigit (fuel : Nat) : ∀ n c, c ∈ natDigitsGo fuel n → c.isDigit = true := by
  induction fuel with
  | zero => intro n c h; simp [natDigitsGo] at h
  | succ fuel ih =>
    intro n c h
    unfold natDigitsGo at h
    split at h
    · rename_i h10
      simp at h
      subst h
      exact digitChar_isDigit n h10
    · simp at h
      rcases h with h | h
      · exact ih _ _ h
      · subst h
        exact digitChar_isDigit _ (Nat.mod_lt _ (by omega))

theorem digitsVal_append_one (ds : List Char) (c : Char) :
    digitsVal (ds ++ [c]) = digitsVal ds * 10 + (c.toNat - 48) := by
  simp [digitsVal, List.foldl_append]

theorem natDigitsGo_val : ∀ fuel n, n < fuel → digitsVal (natDigitsGo fuel n) = n := by
  intro fuel
  induction fuel with
  | zero => intro n h; omega
  | succ fuel ih =>
    intro n h
    unfold natDigitsGo
    split
    · rename_i h10
      have h1 := digitChar_toNat n h10
      simp [digitsVal]
      omega
    · rename_i h10
      have hdiv : n / 10 < fuel := by
        have := Nat.div_lt_self (show 0 < n by omega) (show (1 : Nat) < 10 by omega)
        omega
      rw [digitsVal_append_one, ih (n / 10) hdiv]
      have h1 := digitChar_toNat (n % 10) (by omega)
      omega

theorem digitsVal_natDigits (n : Nat) : digitsVal (natDigits n) = n :=
  natDigitsGo_val (n + 1) n (Nat.lt_succ_self n)

theorem natDigits_isDigit (n : Nat) : ∀ c ∈ natDigits n, c.isDigit = true :=
  fun c h => natDigitsGo_isDigit (n + 1) n c h

theorem takeWhile_all_append {p : Char → Bool} :
    ∀ (l₁ : List Char) (d : Char) (l₂ : List Char), (∀ c ∈ l₁, p c = true) → p d = false →
      (l₁ ++ d :: l₂).takeWhile p = l₁ := by
  intro l₁
  induction l₁ with
  | nil => intro d l₂ _ hd; simp [List.takeWhile_cons, hd]
  | cons a l ih =>
    intro d l₂ h hd
    have ha : p a = true := h a (by simp)
    simp [List.takeWhile_cons, ha, ih d l₂ (fun c hc => h c (by simp [hc])) hd]

theorem dropWhile_all_append {p : Char → Bool} :
    ∀ (l₁ : List Char) (d : Char) (l₂ : List Char), (∀ c ∈ l₁, p c = true) → p d = false →
      (l₁ ++ d :: l₂).dropWhile p = d :: l₂ := by
  intro l₁
  induction l₁ with
  | nil => intro d l₂ _ hd; simp [List.dropWhile_cons, hd]
  | cons a l ih =>
    intro d l₂ h hd
    have ha : p a = true := h a (by simp)
    simp [List.dropWhile_cons, ha, ih d l₂ (fun c hc => h c (by simp [hc])) hd]

theorem figName_toList (pn fc : Nat) :
    (figName pn fc).toList = 'p' :: natDigits pn ++ "_fig".toList ++ natDigits fc ++ ".png".toList := rfl

theorem fcOfName_figName (pn fc : Nat) : fcOfName (figName pn fc) = fc := by
  unfold fcOfName
  rw [figName_toList]
  have h1 : ('p' :: natDigits pn ++ "_fig".toList ++ natDigits fc ++ ".png".toList).drop 1
      = natDigits pn ++ '_' :: ('f' :: 'i' :: 'g' :: (natDigits fc ++ '.' :: 'p' :: 'n' :: 'g' :: [])) := by
    simp [List.append_assoc]
  rw [h1, dropWhile_all_append (natDigits pn) '_' _ (natDigits_isDigit pn) (by decide)]
  have h2 : ('_' :: ('f' :: 'i' :: 'g' :: (natDigits fc ++ '.' :: 'p' :: 'n' :: 'g' :: []))).drop 4
      = natDigits fc ++ '.' :: 'p' :: 'n' :: 'g' :: [] := rfl
  rw [h2, takeWhile_all_append (natDigits fc) '.' _ (natDigits_isDigit fc) (by decide),
    digitsVal_natDigits]

theorem figName_inj_fc {pn1 fc1 pn2 fc2 : Nat} (h : figName pn1 fc1 = figName pn2 fc2) :
    fc1 = fc2 := by
  have h2 := congrArg fcOfName h
  rwa [fcOfName_figName, fcOfName_figName] at h2

/-! ## Lemmas: figure-counter invariants of parse_pdf -/

theorem processRawElems_inv (pn : Nat) :
    ∀ (raw : List (Option RawElem)) (fc : Nat),
      fc ≤ (processRawElems pn fc raw).1 ∧
      (∀ name ∈ figNames (processRawElems pn fc raw).2,
        ∃ k, fc < k ∧ k ≤ (processRawElems pn fc raw).1 ∧ name = figName pn k) ∧
      (figNames (processRawElems pn fc raw).2).Pairwise (fun a b => fcOfName a < fcOfName b) := by
  intro raw
  induction raw with
  | nil => intro fc; refine ⟨le_refl _, ?_, ?_⟩ <;> simp [processRawElems, figNames]
  | cons o rest ih =>
    intro fc
    match o with
    | none => simpa only [processRawElems] using ih fc
    | some e =>
      cases hcat : categoryTypeMap (e.category.getD "Text") with
      | none => simpa only [processRawElems, hcat] using ih fc
      | some t =>
        by_cases ht : t = "image"
        · by_cases hbb : e.bbox.isEmpty
          · have hred : processRawElems pn fc (some e :: rest) = processRawElems pn fc rest := by
              simp [processRawElems, hcat, ht, hbb]
            rw [hred]; exact ih fc
          · by_cases hlen : e.bbox.length < 4
            · have hred : processRawElems pn fc (some e :: rest)
                  = processRawElems pn (fc + 1) rest := by
                simp [processRawElems, hcat, ht, hbb, hlen]
              rw [hred]
              have h := ih (fc + 1)
              refine ⟨by omega, fun name hn => ?_, h.2.2⟩
              obtain ⟨k, hk1, hk2, hk3⟩ := h.2.1 name hn
              exact ⟨k, by omega, hk2, hk3⟩
            · have hred : processRawElems pn fc (some e :: rest)
                  = ((processRawElems pn (fc + 1) rest).1,
                     Elem.image (figName pn (fc + 1)) pn :: (processRawElems pn (fc + 1) rest).2) := by
                simp [processRawElems, hcat, ht, hbb, hlen]
              rw [hred]
              have h := ih (fc + 1)
              refine ⟨by simpa using by omega, ?_, ?_⟩
              · intro name hn
                simp only [figNames, List.filterMap_cons] at hn
                simp only [figNames] at h
                rcases List.mem_cons.mp hn with h1 | h1
                · exact ⟨fc + 1, Nat.lt_succ_self fc, h.1, h1⟩
                · obtain ⟨k, hk1, hk2, hk3⟩ := h.2.1 name h1
                  exact ⟨k, by omega, hk2, hk3⟩
              · simp only [figNames, List.filterMap_cons]
                simp only [figNames] at h
                refine List.Pairwise.cons (fun b hb => ?_) h.2.2
                obtain ⟨k, hk1, _, hk3⟩ := h.2.1 b hb
                rw [fcOfName_figName, hk3, fcOfName_figName]
                exact hk1
        · by_cases htxt : (e.text.getD "").trim = ""
          · have hred : processRawElems pn fc (some e :: rest) = processRawElems pn fc rest := by
              simp [processRawElems, hcat, ht, htxt]
            rw [hred]; exact ih fc
          · have hred : processRawElems pn fc (some e :: rest)
                = ((processRawElems pn fc rest).1,
                   Elem.content t ((e.text.getD "").trim) pn :: (processRawElems pn fc rest).2) := by
              simp [processRawElems, hcat, ht, htxt]
            rw [hred]
            have h := ih fc
            exact ⟨h.1, fun name hn => h.2.1 name (by simpa [figNames, List.filterMap_cons] using hn),
              by simpa [figNames, List.filterMap_cons] using h.2.2⟩

theorem parsePdfLoop_inv :
    ∀ (pages : List PageInput) (fc pn : Nat),
      fc ≤ (parsePdfLoop fc pn pages).1 ∧
      (∀ name ∈ figNames (parsePdfLoop fc pn pages).2,
        ∃ k pg, fc < k ∧ k ≤ (parsePdfLoop fc pn pages).1 ∧ name = figName pg k) ∧
      (figNames (parsePdfLoop fc pn pages).2).Pairwise (fun a b => fcOfName a < fcOfName b) := by
  intro pages
  induction pages with
  | nil => intro fc pn; refine ⟨le_refl _, ?_, ?_⟩ <;> simp [parsePdfLoop, figNames]
  | cons p ps ih =>
    intro fc pn
    have hp := processRawElems_inv (pn + 1) (pageRawElements p.ocr p.blocks) fc
    have hr := ih (processRawElems (pn + 1) fc (pageRawElements p.ocr p.blocks)).1 (pn + 1)
    simp only [parsePdfLoop, figNames, List.filterMap_append] at *
    refine ⟨by omega, ?_, ?_⟩
    · intro name hn
      rcases List.mem_append.mp hn with h1 | h1
      · obtain ⟨k, hk1, hk2, hk3⟩ := hp.2.1 name h1
        exact ⟨k, pn + 1, hk1, by omega, hk3⟩
      · obtain ⟨k, pg, hk1, hk2, hk3⟩ := hr.2.1 name h1
        exact ⟨k, pg, by omega, hk2, hk3⟩
    · rw [List.pairwise_append]
      refine ⟨hp.2.2, hr.2.2, fun a ha b hb => ?_⟩
      obtain ⟨ka, hka1, hka2, hka3⟩ := hp.2.1 a ha
      obtain ⟨kb, pgb, hkb1, hkb2, hkb3⟩ := hr.2.1 b hb
      rw [hka3, hkb3, fcOfName_figName, fcOfName_figName]
      omega

/-- C5: for every input PDF (modelled as its per-page OCR outcomes and
fallback blocks), the figure filenames produced by `parse_pdf` are pairwise
unique within the document. -/
theorem fig_filenames_unique (pages : List PageInput) :
    (figNames (parsePdfElems pages)).Nodup := by
  have h := (parsePdfLoop_inv pages 0 0).2.2
  exact h.imp (fun {a b} hlt heq => by subst heq; exact lt_irrefl _ hlt)

/-! ## Lemmas: the caption matcher consumes characters -/

theorem matchLit_length :
    ∀ (p cs r : List Char), matchLit p cs = some r → r.length + p.length = cs.length := by
  intro p
  induction p with
  | nil =>
    intro cs r h
    simp only [matchLit, Option.some.injEq] at h
    subst h
    simp
  | cons a p ih =>
    intro cs r h
    match cs with
    | [] => simp [matchLit] at h
    | c :: cs =>
      simp only [matchLit] at h
      by_cases hc : c.toLower = a.toLower
      · rw [if_pos hc] at h
        have := ih cs r h
        simp only [List.length_cons]
        omega
      · rw [if_neg hc] at h
        cases h

theorem matchOptLit_length_le (p cs : List Char) : (matchOptLit p cs).length ≤ cs.length := by
  unfold matchOptLit
  cases h : matchLit p cs with
  | some r =>
    show r.length ≤ cs.length
    have := matchLit_length p cs r h
    omega
  | none => exact le_refl _

theorem length_dropWhile_le' (p : Char → Bool) (l : List Char) :
    (l.dropWhile p).length ≤ l.length := by
  induction l with
  | nil => simp
  | cons a l ih =>
    by_cases h : p a
    · simp only [List.dropWhile_cons, h, if_true]
      simp only [List.length_cons]
      omega
    · simp [List.dropWhile_cons, h]

theorem matchSpaces1_length_lt (cs r : List Char) (h : matchSpaces1 cs = some r) :
    r.length < cs.length := by
  match cs with
  | [] => simp [matchSpaces1] at h
  | c :: cs =>
    simp only [matchSpaces1] at h
    by_cases hc : isPySpace c
    · rw [if_pos hc] at h
      cases h
      have := length_dropWhile_le' isPySpace cs
      simp only [List.length_cons]
      omega
    · rw [if_neg hc] at h
      cases h

theorem matchDigits1_length_le (cs : List Char) (n : Nat) (r : List Char)
    (h : matchDigits1 cs = some (n, r)) : r.length ≤ cs.length := by
  simp only [matchDigits1] at h
  by_cases hd : (cs.takeWhile Char.isDigit).isEmpty
  · rw [if_pos hd] at h; cases h
  · rw [if_neg hd] at h
    cases h
    exact length_dropWhile_le' Char.isDigit cs

theorem matchAfterKw_length_lt (cs : List Char) (n : Nat) (r : List Char)
    (h : matchAfterKw cs = some (n, r)) : r.length < cs.length := by
  simp only [matchAfterKw] at h
  cases h1 : matchSpaces1 cs with
  | none => simp only [h1] at h; cases h
  | some cs1 =>
    simp only [h1] at h
    cases h2 : matchDigits1 cs1 with
    | none => simp only [h2] at h; cases h
    | some nr =>
      obtain ⟨n2, cs2⟩ := nr
      simp only [h2, Option.some.injEq, Prod.mk.injEq] at h
      obtain ⟨h3, h4⟩ := h
      subst h4
      have ha := matchSpaces1_length_lt cs cs1 h1
      have hb := matchDigits1_length_le cs1 n2 cs2 h2
      have hc := matchOptLit_length_le ".".toList cs2
      have hd := matchOptLit_length_le "</strong>".toList (matchOptLit ".".toList cs2)
      omega

theorem tryKws_length_lt :
    ∀ (kws : List (List Char)) (cs : List Char) (n : Nat) (r : List Char),
      tryKws kws cs = some (n, r) → r.length < cs.length := by
  intro kws
  induction kws with
  | nil => intro cs n r h; simp [tryKws] at h
  | cons kw kws ih =>
    intro cs n r h
    simp only [tryKws] at h
    cases h1 : matchLit kw cs with
    | none => simp only [h1] at h; exact ih cs n r h
    | some cs1 =>
      simp only [h1] at h
      cases h2 : matchAfterKw cs1 with
      | none => simp only [h2] at h; exact ih cs n r h
      | some nr =>
        obtain ⟨n2, r2⟩ := nr
        simp only [h2, Option.some.injEq, Prod.mk.injEq] at h
        obtain ⟨h3, h4⟩ := h
        subst h4
        have ha := matchLit_length kw cs cs1 h1
        have hb := matchAfterKw_length_lt cs1 n2 r2 h2
        omega

theorem matchCaption_length_lt (cs : List Char) (n : Nat) (r : List Char)
    (h : matchCaption cs = some (n, r)) : r.length < cs.length := by
  simp only [matchCaption] at h
  cases h1 : matchLit "<p>".toList cs with
  | none => rw [h1] at h; cases h
  | some cs0 =>
    rw [h1] at h
    have ha := matchLit_length _ cs cs0 h1
    have hb := matchOptLit_length_le "<strong>".toList cs0
    have hc := tryKws_length_lt captionKws _ n r h
    simp only [String.length] at ha
    omega

theorem matchCaption_nil : matchCaption [] = none := by
  simp [matchCaption, matchLit]

/-! ## Lemmas: the substitution scan -/

theorem subCaptionsGo_fuel (m : List (Nat × String)) (b : String) :
    ∀ f cs ins, cs.length ≤ f →
      subCaptionsGo m b f ins cs = subCaptionsGo m b cs.length ins cs := by
  intro f
  induction f using Nat.strong_induction_on with
  | _ f IH =>
    intro cs ins hle
    match f, cs with
    | 0, cs =>
      have h0 : cs = [] := List.eq_nil_of_length_eq_zero (Nat.le_zero.mp hle)
      subst h0
      rfl
    | f + 1, [] => rfl
    | f + 1, c :: cs =>
      have hle' : cs.length + 1 ≤ f + 1 := by simpa using hle
      show _ = subCaptionsGo m b (c :: cs).length ins (c :: cs)
      rw [show (c :: cs).length = cs.length + 1 from rfl]
      rw [subCaptionsGo, subCaptionsGo]
      cases hm : matchCaption (c :: cs) with
      | some nr =>
        obtain ⟨n, rest⟩ := nr
        have hrest : rest.length ≤ cs.length := by
          have h2 := matchCaption_length_lt _ _ _ hm
          simp only [List.length_cons, Nat.lt_succ_iff] at h2
          exact h2
        simp only [hm]
        rw [IH f (by omega) rest _ (by omega), IH cs.length (by omega) rest _ hrest]
      | none =>
        simp only [hm]
        rw [IH f (by omega) cs ins (by omega), IH cs.length (by omega) cs ins (le_refl _)]

theorem subCaptionsFrom_insert_head (m : List (Nat × String)) (b : String) (ins : List Nat)
    (cap rest : List Char) (K : Nat) (fname : String)
    (hget : dictGet? m K = some fname) (hne : fname ≠ "") (hnotin : ins.contains K = false)
    (hcap : matchCaption cap = some (K, rest)) :
    subCaptionsFrom m b ins cap
      = ((subCaptionsFrom m b (ins ++ [K]) rest).1,
         (imgTag b fname K).toList ++ cap.take (cap.length - rest.length)
           ++ (subCaptionsFrom m b (ins ++ [K]) rest).2) := by
  match cap with
  | [] => rw [matchCaption_nil] at hcap; cases hcap
  | c :: cs =>
    have hrest : rest.length ≤ cs.length := by
      have h2 := matchCaption_length_lt _ _ _ hcap
      simp only [List.length_cons, Nat.lt_succ_iff] at h2
      exact h2
    have hcond : (fname != "" && !(ins.contains K)) = true := by
      rw [hnotin]
      simp [bne_iff_ne, hne]
    unfold subCaptionsFrom
    rw [show (c :: cs).length = cs.length + 1 from rfl, subCaptionsGo]
    simp only [hcap, hget, hcond, if_true]
    rw [subCaptionsGo_fuel m b cs.length rest (ins ++ [K]) hrest]
    simp [List.append_assoc]

theorem subCaptionsGo_ins_extend (m : List (Nat × String)) (b : String) :
    ∀ (f : Nat) (cs : List Char) (ins : List Nat),
      ∃ ex, (subCaptionsGo m b f ins cs).1 = ins ++ ex := by
  intro f
  induction f with
  | zero => intro cs ins; exact ⟨[], by simp [subCaptionsGo]⟩
  | succ f ih =>
    intro cs ins
    match cs with
    | [] => exact ⟨[], by simp [subCaptionsGo]⟩
    | c :: cs =>
      rw [subCaptionsGo]
      cases hm : matchCaption (c :: cs) with
      | some nr =>
        obtain ⟨n, rest⟩ := nr
        simp only [hm]
        cases hg : dictGet? m n with
        | some fname =>
          by_cases hins : (fname != "" && !ins.contains n) = true
          · simp only [hg, hins, if_true]
            obtain ⟨ex, hex⟩ := ih rest (ins ++ [n])
            exact ⟨n :: ex, by simp only [hex, List.append_assoc, List.singleton_append]⟩
          · simp only [hg, hins, if_false]
            exact ih rest ins
        | none =>
          simp only [hg]
          exact ih rest ins
      | none =>
        simp only [hm]
        obtain ⟨ex, hex⟩ := ih cs ins
        exact ⟨ex, hex⟩

theorem subCaptionsGo_count_mem (m : List (Nat × String)) (b : String) (K : Nat) :
    ∀ (f : Nat) (cs : List Char) (ins : List Nat), K ∈ ins →
      (subCaptionsGo m b f ins cs).1.count K = ins.count K := by
  intro f
  induction f with
  | zero => intro cs ins _; simp [subCaptionsGo]
  | succ f ih =>
    intro cs ins hK
    match cs with
    | [] => simp [subCaptionsGo]
    | c :: cs =>
      rw [subCaptionsGo]
      cases hm : matchCaption (c :: cs) with
      | some nr =>
        obtain ⟨n, rest⟩ := nr
        simp only [hm]
        cases hg : dictGet? m n with
        | some fname =>
          by_cases hins : (fname != "" && !ins.contains n) = true
          · simp only [hg, hins, if_true]
            have hnotin : n ∉ ins := by
              simp only [Bool.and_eq_true] at hins
              simpa using hins.2
            have hne : n ≠ K := fun he => hnotin (he ▸ hK)
            have hcnt : (ins ++ [n]).count K = ins.count K := by
              rw [List.count_append]
              simp [List.count_singleton', hne]
            rw [ih rest (ins ++ [n]) (List.mem_append_left _ hK), hcnt]
          · simp only [hg, hins, if_false]
            exact ih rest ins hK
        | none =>
          simp only [hg]
          exact ih rest ins hK
      | none =>
        simp only [hm]
        exact ih cs ins hK

/-! ## Lemmas: a match starting before a caption stops at its boundary -/

theorem charToLower_eq_lt {c : Char} (h : c.toLower = '<') : c = '<' := by
  unfold Char.toLower at h
  by_cases hc : c.toNat ≥ 65 ∧ c.toNat ≤ 90
  · exfalso
    rw [if_pos hc] at h
    have h2 : (Char.ofNat (c.toNat + 32)).toNat = c.toNat + 32 := by
      unfold Char.ofNat
      rw [dif_pos (by unfold Nat.isValidChar; left; omega)]
      rfl
    rw [h] at h2
    have h3 : ('<' : Char).toNat = 60 := by decide
    omega
  · rw [if_neg hc] at h
    exact h

theorem matchLit_take :
    ∀ (p cs r : List Char), matchLit p cs = some r →
      (cs.take p.length).map Char.toLower = p.map Char.toLower := by
  intro p
  induction p with
  | nil => intro cs r _; simp
  | cons a p ih =>
    intro cs r h
    match cs with
    | [] => simp [matchLit] at h
    | c :: cs =>
      simp only [matchLit] at h
      by_cases hc : c.toLower = a.toLower
      · rw [if_pos hc] at h
        simp only [List.length_cons, List.take_succ_cons, List.map_cons, hc]
        rw [ih cs r h]
      · rw [if_neg hc] at h
        cases h

theorem matchLit_drop :
    ∀ (p cs r : List Char), matchLit p cs = some r → r = cs.drop p.length := by
  intro p
  induction p with
  | nil =>
    intro cs r h
    simp only [matchLit, Option.some.injEq] at h
    subst h
    simp
  | cons a p ih =>
    intro cs r h
    match cs with
    | [] => simp [matchLit] at h
    | c :: cs =>
      simp only [matchLit] at h
      by_cases hc : c.toLower = a.toLower
      · rw [if_pos hc] at h
        simp only [List.length_cons, List.drop_succ_cons]
        exact ih cs r h
      · rw [if_neg hc] at h
        cases h

theorem drop_add (l : List Char) (a b : Nat) : (l.drop a).drop b = l.drop (a + b) := by
  rw [List.drop_drop]

theorem matchLit_cons_eq {a : Char} {p : List Char} {c : Char} {cs : List Char}
    (h : c.toLower = a.toLower) : matchLit (a :: p) (c :: cs) = matchLit p cs := by
  simp only [matchLit, if_pos h]

theorem matchLit_cons_ne {a : Char} {p : List Char} {c : Char} {cs : List Char}
    (h : ¬ c.toLower = a.toLower) : matchLit (a :: p) (c :: cs) = none := by
  simp only [matchLit, if_neg h]

theorem dropWhile_eq_drop (p : Char → Bool) (l : List Char) :
    l.dropWhile p = l.drop (l.takeWhile p).length := by
  calc l.dropWhile p
      = (l.takeWhile p ++ l.dropWhile p).drop (l.takeWhile p).length := (List.drop_left _ _).symm
    _ = l.drop (l.takeWhile p).length := by rw [List.takeWhile_append_dropWhile]

theorem dropWhile_boundary {p : Char → Bool} {d : Char} (hd : p d = false) :
    ∀ (x t : List Char), (x ++ d :: t).dropWhile p = x.dropWhile p ++ d :: t := by
  intro x
  induction x with
  | nil => intro t; simp [List.dropWhile_cons, hd]
  | cons a x ih =>
    intro t
    by_cases ha : p a
    · simp [List.dropWhile_cons, ha, ih]
    · simp [List.dropWhile_cons, ha]

theorem matchLit_boundary {pat x : List Char} {c1 : Char} {t r : List Char}
    (hx : x ≠ []) (hc1 : c1.toLower = '<')
    (hpat : ∀ j, 1 ≤ j → j < pat.length → (pat.map Char.toLower)[j]? ≠ some '<')
    (hm : matchLit pat (x ++ c1 :: t) = some r) :
    pat.length ≤ x.length := by
  by_contra hlen
  push_neg at hlen
  have htake := matchLit_take pat (x ++ c1 :: t) r hm
  have h1 : (((x ++ c1 :: t).take pat.length).map Char.toLower)[x.length]? = some '<' := by
    rw [List.getElem?_map, List.getElem?_take_of_lt hlen, List.getElem?_append_right (le_refl _)]
    simp [hc1]
  rw [htake] at h1
  exact hpat x.length (List.length_pos.mpr hx) hlen h1

theorem matchOptLit_boundary (pat x : List Char) (c1 : Char) (t : List Char)
    (hc1 : c1.toLower = '<')
    (hpat : ∀ j, 1 ≤ j → j < pat.length → (pat.map Char.toLower)[j]? ≠ some '<')
    (hfail : matchLit pat (c1 :: t) = none) :
    ∃ j, matchOptLit pat (x ++ c1 :: t) = x.drop j ++ c1 :: t := by
  match x with
  | [] =>
    refine ⟨0, ?_⟩
    simp [matchOptLit, hfail]
  | a :: x2 =>
    unfold matchOptLit
    cases hm : matchLit pat ((a :: x2) ++ c1 :: t) with
    | none => exact ⟨0, rfl⟩
    | some r =>
      have hle := matchLit_boundary (by simp) hc1 hpat hm
      refine ⟨pat.length, ?_⟩
      rw [matchLit_drop pat _ r hm, List.drop_append_of_le_length hle]

theorem matchSpaces1_boundary {x : List Char} {c1 : Char} {t r : List Char}
    (hsp : isPySpace c1 = false)
    (hm : matchSpaces1 (x ++ c1 :: t) = some r) :
    ∃ j, r = x.drop j ++ c1 :: t := by
  match x with
  | [] =>
    simp only [List.nil_append, matchSpaces1, hsp, Bool.false_eq_true, if_false] at hm
    cases hm
  | a :: x2 =>
    simp only [List.cons_append, matchSpaces1] at hm
    by_cases ha : isPySpace a
    · rw [if_pos ha] at hm
      cases hm
      refine ⟨(x2.takeWhile isPySpace).length + 1, ?_⟩
      rw [dropWhile_boundary hsp x2 t, dropWhile_eq_drop]
      rfl
    · rw [if_neg ha] at hm
      cases hm

theorem matchDigits1_boundary {x : List Char} {c1 : Char} {t r : List Char} {n : Nat}
    (hdg : c1.isDigit = false)
    (hm : matchDigits1 (x ++ c1 :: t) = some (n, r)) :
    ∃ j, r = x.drop j ++ c1 :: t := by
  simp only [matchDigits1] at hm
  by_cases he : ((x ++ c1 :: t).takeWhile Char.isDigit).isEmpty
  · rw [if_pos he] at hm
    cases hm
  · rw [if_neg he] at hm
    cases hm
    refine ⟨(x.takeWhile Char.isDigit).length, ?_⟩
    rw [dropWhile_boundary hdg x t, dropWhile_eq_drop]

theorem matchAfterKw_boundary {x : List Char} {c1 c2 : Char} {t r : List Char} {n : Nat}
    (hc1 : c1.toLower = '<') (hc2 : c2.toLower = 'p')
    (hm : matchAfterKw (x ++ c1 :: c2 :: t) = some (n, r)) :
    ∃ j, r = x.drop j ++ c1 :: c2 :: t := by
  have hc1e : c1 = '<' := charToLower_eq_lt hc1
  subst hc1e
  simp only [matchAfterKw] at hm
  cases hs : matchSpaces1 (x ++ '<' :: c2 :: t) with
  | none =>
    simp only [hs] at hm
    cases hm
  | some cs1 =>
    simp only [hs] at hm
    obtain ⟨j1, hj1⟩ := matchSpaces1_boundary (by decide) hs
    subst hj1
    cases hd : matchDigits1 (x.drop j1 ++ '<' :: c2 :: t) with
    | none =>
      simp only [hd] at hm
      cases hm
    | some nr =>
      obtain ⟨n2, cs2⟩ := nr
      simp only [hd, Option.some.injEq, Prod.mk.injEq] at hm
      obtain ⟨hn, hr⟩ := hm
      obtain ⟨j2, hj2⟩ := matchDigits1_boundary (by decide) hd
      subst hj2
      obtain ⟨j3, hj3⟩ := matchOptLit_boundary ".".toList ((x.drop j1).drop j2) '<' (c2 :: t)
        (by decide) (by decide) (matchLit_cons_ne (by decide))
      rw [hj3] at hr
      obtain ⟨j4, hj4⟩ := matchOptLit_boundary "</strong>".toList
        (((x.drop j1).drop j2).drop j3) '<' (c2 :: t) (by decide) (by decide)
        (by rw [show "</strong>".toList = '<' :: '/' :: "strong>".toList from rfl,
              matchLit_cons_eq (by decide), matchLit_cons_ne (by rw [hc2]; decide)])
      rw [hj4] at hr
      exact ⟨j1 + (j2 + (j3 + j4)), by rw [← hr, drop_add, drop_add, drop_add]⟩

theorem tryKws_boundary :
    ∀ (kws : List (List Char)),
      (∀ kw ∈ kws, (∀ j, 1 ≤ j → j < kw.length → (kw.map Char.toLower)[j]? ≠ some '<')
        ∧ (kw.map Char.toLower)[0]? ≠ some '<') →
      ∀ (x : List Char) (c1 c2 : Char) (t : List Char) (n : Nat) (r : List Char),
        c1.toLower = '<' → c2.toLower = 'p' →
        tryKws kws (x ++ c1 :: c2 :: t) = some (n, r) →
        ∃ j, r = x.drop j ++ c1 :: c2 :: t := by
  intro kws
  induction kws with
  | nil =>
    intro _ x c1 c2 t n r _ _ hm
    simp [tryKws] at hm
  | cons kw kws ih =>
    intro hcond x c1 c2 t n r hc1 hc2 hm
    have hkw := hcond kw (by simp)
    have hrest := fun kw2 h2 => hcond kw2 (List.mem_cons_of_mem _ h2)
    simp only [tryKws] at hm
    cases hl : matchLit kw (x ++ c1 :: c2 :: t) with
    | none =>
      simp only [hl] at hm
      exact ih hrest x c1 c2 t n r hc1 hc2 hm
    | some cs1 =>
      simp only [hl] at hm
      have hcs1 : ∃ j1, cs1 = x.drop j1 ++ c1 :: c2 :: t := by
        match x with
        | [] =>
          match kw with
          | [] =>
            simp only [matchLit, Option.some.injEq] at hl
            exact ⟨0, hl.symm⟩
          | k0 :: kw2 =>
            exfalso
            simp only [List.nil_append, matchLit] at hl
            by_cases hcc : c1.toLower = k0.toLower
            · refine hkw.2 ?_
              simp only [List.map_cons, List.getElem?_cons_zero]
              rw [← hcc, hc1]
            · rw [if_neg hcc] at hl
              cases hl
        | a :: x2 =>
          have hle := matchLit_boundary (by simp) hc1 hkw.1 hl
          exact ⟨kw.length, by rw [matchLit_drop kw _ cs1 hl, List.drop_append_of_le_length hle]⟩
      obtain ⟨j1, hj1⟩ := hcs1
      subst hj1
      cases ha : matchAfterKw (x.drop j1 ++ c1 :: c2 :: t) with
      | none =>
        simp only [ha] at hm
        exact ih hrest x c1 c2 t n r hc1 hc2 hm
      | some nr2 =>
        obtain ⟨n2, r2⟩ := nr2
        simp only [ha, Option.some.injEq, Prod.mk.injEq] at hm
        obtain ⟨hn, hr⟩ := hm
        subst hr
        obtain ⟨j2, hj2⟩ := matchAfterKw_boundary hc1 hc2 ha
        exact ⟨j1 + j2, by rw [hj2, drop_add]⟩

theorem matchCaption_no_cross {x : List Char} {c1 c2 : Char} {t : List Char} {n : Nat}
    {r : List Char}
    (hx : x ≠ []) (hc1 : c1.toLower = '<') (hc2 : c2.toLower = 'p')
    (hm : matchCaption (x ++ c1 :: c2 :: t) = some (n, r)) :
    ∃ j, r = x.drop j ++ c1 :: c2 :: t := by
  simp only [matchCaption] at hm
  cases hp : matchLit "<p>".toList (x ++ c1 :: c2 :: t) with
  | none =>
    simp only [hp] at hm
    cases hm
  | some cs0 =>
    simp only [hp] at hm
    have hlen3 : ("<p>".toList).length = 3 := rfl
    have h3 : 3 ≤ x.length := by
      rw [← hlen3]
      exact matchLit_boundary hx hc1 (by decide) hp
    have hcs0 : cs0 = x.drop 3 ++ c1 :: c2 :: t := by
      rw [matchLit_drop _ _ _ hp, hlen3, List.drop_append_of_le_length h3]
    subst hcs0
    obtain ⟨j1, hj1⟩ := matchOptLit_boundary "<strong>".toList (x.drop 3) c1 (c2 :: t)
      hc1 (by decide)
      (by rw [show "<strong>".toList = '<' :: 's' :: "trong>".toList from rfl,
            matchLit_cons_eq (by rw [hc1]; decide), matchLit_cons_ne (by rw [hc2]; decide)])
    rw [hj1] at hm
    obtain ⟨j2, hj2⟩ := tryKws_boundary captionKws (by decide) ((x.drop 3).drop j1) c1 c2 t n r
      hc1 hc2 hm
    exact ⟨3 + (j1 + j2), by rw [hj2, drop_add, drop_add]⟩

theorem matchCaption_head {cs : List Char} {n : Nat} {r : List Char}
    (h : matchCaption cs = some (n, r)) :
    ∃ c1 c2 t, cs = c1 :: c2 :: t ∧ c1.toLower = '<' ∧ c2.toLower = 'p' := by
  simp only [matchCaption] at h
  match cs with
  | [] => simp [matchLit] at h
  | [c1] => simp [matchLit] at h
  | c1 :: c2 :: t =>
    simp only [matchLit] at h
    by_cases h1 : c1.toLower = ('<' : Char).toLower
    · rw [if_pos h1] at h
      by_cases h2 : c2.toLower = ('p' : Char).toLower
      · exact ⟨c1, c2, t, rfl, h1.trans (by decide), h2.trans (by decide)⟩
      · rw [if_neg h2] at h
        simp at h
    · rw [if_neg h1] at h
      simp at h

theorem noCaptionKStart_drop {K : Nat} {pre cap : List Char} (h : noCaptionKStart K pre cap)
    (d : Nat) : noCaptionKStart K (pre.drop d) cap := by
  intro i hi
  rw [drop_add]
  exact h (d + i) (by rw [List.length_drop] at hi; omega)

/-! ## Lemmas: the figure map -/

theorem figNum?_empty : figNum? "" = none := rfl

theorem figMapOf_parse_aux :
    ∀ (figs : List String) (m : List (Nat × String)),
      (∀ q ∈ m, figNum? q.2 = some q.1) →
      ∀ q ∈ figs.foldl
          (fun m name =>
            match figNum? name with
            | some n => dictInsert m n name
            | none => m) m,
        figNum? q.2 = some q.1 := by
  intro figs
  induction figs with
  | nil => intro m hm q hq; exact hm q hq
  | cons name figs ih =>
    intro m hm q hq
    simp only [List.foldl_cons] at hq
    cases hn : figNum? name with
    | none =>
      simp only [hn] at hq
      exact ih m hm q hq
    | some n =>
      simp only [hn] at hq
      refine ih (dictInsert m n name) ?_ q hq
      intro p hp
      unfold dictInsert at hp
      by_cases hany : m.any (fun p => p.1 == n)
      · rw [if_pos hany] at hp
        obtain ⟨p0, hp0, hpe⟩ := List.mem_map.mp hp
        by_cases he : (p0.1 == n) = true
        · rw [if_pos he] at hpe
          subst hpe
          exact hn
        · rw [if_neg he] at hpe
          subst hpe
          exact hm p0 hp0
      · rw [if_neg hany] at hp
        rcases List.mem_append.mp hp with h | h
        · exact hm p h
        · simp only [List.mem_singleton] at h
          subst h
          exact hn

theorem dictGet?_parse {figs : List String} {n : Nat} {v : String}
    (h : dictGet? (figMapOf figs) n = some v) : figNum? v = some n := by
  unfold dictGet? at h
  cases hf : (figMapOf figs).find? (fun p => p.1 == n) with
  | none => rw [hf] at h; cases h
  | some q =>
    rw [hf] at h
    simp only [Option.map_some'] at h
    have hq : q ∈ figMapOf figs := List.mem_of_find?_eq_some hf
    have hp := List.find?_some hf
    have hqn : q.1 = n := by simpa using hp
    have hparse := figMapOf_parse_aux figs [] (by simp) q (by simpa [figMapOf] using hq)
    have hv := Option.some.inj h
    rw [← hv, hparse, hqn]

theorem dictGet?_ne_empty {figs : List String} {n : Nat} {v : String}
    (h : dictGet? (figMapOf figs) n = some v) : v ≠ "" := by
  intro he
  subst he
  have := dictGet?_parse h
  rw [figNum?_empty] at this
  cases this

theorem dictInsert_keys (m : List (Nat × String)) (k : Nat) (v : String) :
    (dictInsert m k v).map Prod.fst
      = if m.any (fun p => p.1 == k) then m.map Prod.fst else m.map Prod.fst ++ [k] := by
  unfold dictInsert
  by_cases h : m.any (fun p => p.1 == k)
  · rw [if_pos h, if_pos h, List.map_map]
    refine List.map_congr_left (fun p _ => ?_)
    by_cases he : (p.1 == k) = true
    · simp only [Function.comp_apply, if_pos he]
      exact (eq_of_beq he).symm
    · simp only [Function.comp_apply, if_neg he]
  · rw [if_neg h, if_neg h, List.map_append]
    rfl

theorem figMapOf_keys_nodup_aux :
    ∀ (figs : List String) (m : List (Nat × String)), (m.map Prod.fst).Nodup →
      ((figs.foldl
          (fun m name =>
            match figNum? name with
            | some n => dictInsert m n name
            | none => m) m).map Prod.fst).Nodup := by
  intro figs
  induction figs with
  | nil => intro m hm; exact hm
  | cons name figs ih =>
    intro m hm
    simp only [List.foldl_cons]
    cases hn : figNum? name with
    | none => exact ih m hm
    | some n =>
      refine ih (dictInsert m n name) ?_
      rw [dictInsert_keys]
      by_cases hany : m.any (fun p => p.1 == n)
      · rw [if_pos hany]; exact hm
      · rw [if_neg hany]
        have hnot : n ∉ m.map Prod.fst := by
          intro hmem
          obtain ⟨p, hp, hpe⟩ := List.mem_map.mp hmem
          exact hany (List.any_eq_true.mpr ⟨p, hp, by simp [hpe]⟩)
        simp only [List.nodup_append, List.nodup_singleton, true_and]
        refine ⟨hm, ?_⟩
        intro a ha he
        rw [List.mem_singleton] at he
        subst he
        exact hnot ha

theorem figMapOf_keys_nodup (figs : List String) : ((figMapOf figs).map Prod.fst).Nodup := by
  unfold figMapOf
  exact figMapOf_keys_nodup_aux figs [] (by simp)

theorem dictGet?_isSome_of_mem (m : List (Nat × String)) (n : Nat)
    (h : n ∈ m.map Prod.fst) : ∃ v, dictGet? m n = some v := by
  unfold dictGet?
  cases hf : m.find? (fun p => p.1 == n) with
  | some q => exact ⟨q.2, rfl⟩
  | none =>
    exfalso
    obtain ⟨p, hp, hpe⟩ := List.mem_map.mp h
    have h2 := List.find?_eq_none.mp hf p hp
    simp [hpe] at h2

/-! ## Lemmas: the ordered gallery lists -/

theorem sortKeys_sorted (m : List (Nat × String)) : (sortKeys m).Sorted (· ≤ ·) :=
  List.sorted_insertionSort _ _

theorem sortKeys_perm (m : List (Nat × String)) : (sortKeys m).Perm (m.map Prod.fst) :=
  List.perm_insertionSort _ _

theorem missingNums_pairwise_lt (figs : List String) (ins : List Nat) :
    (missingNumsOf (figMapOf figs) ins).Pairwise (· < ·) := by
  have hs : (sortKeys (figMapOf figs)).Pairwise (· ≤ ·) := sortKeys_sorted _
  have hn : (sortKeys (figMapOf figs)).Nodup :=
    ((sortKeys_perm (figMapOf figs)).nodup_iff).mpr (figMapOf_keys_nodup figs)
  have hlt : (sortKeys (figMapOf figs)).Pairwise (· < ·) :=
    (hs.and hn).imp (fun h => lt_of_le_of_ne h.1 h.2)
  exact hlt.filter _

theorem missingOf_nodup (figs : List String) (ins : List Nat) :
    (missingOf (figMapOf figs) ins).Nodup := by
  have hnums := missingNums_pairwise_lt figs ins
  have hnodup : (missingNumsOf (figMapOf figs) ins).Nodup :=
    hnums.imp (fun h => Nat.ne_of_lt h)
  refine hnodup.map_on ?_
  intro x hx y hy hxy
  have hx2 : x ∈ (figMapOf figs).map Prod.fst :=
    (sortKeys_perm (figMapOf figs)).mem_iff.mp (List.mem_of_mem_filter hx)
  have hy2 : y ∈ (figMapOf figs).map Prod.fst :=
    (sortKeys_perm (figMapOf figs)).mem_iff.mp (List.mem_of_mem_filter hy)
  obtain ⟨vx, hvx⟩ := dictGet?_isSome_of_mem _ x hx2
  obtain ⟨vy, hvy⟩ := dictGet?_isSome_of_mem _ y hy2
  simp only [hvx, hvy, Option.getD_some] at hxy
  subst hxy
  have px := dictGet?_parse hvx
  have py := dictGet?_parse hvy
  rw [px] at py
  exact Option.some.injEq _ _ ▸ py

theorem natDigits_ne_nil (n : Nat) : natDigits n ≠ [] := by
  unfold natDigits natDigitsGo
  split <;> simp

theorem figMapOf_keys_grow :
    ∀ (figs : List String) (m : List (Nat × String)) (k : Nat),
      k ∈ m.map Prod.fst →
      k ∈ (figs.foldl
            (fun m name =>
              match figNum? name with
              | some n => dictInsert m n name
              | none => m) m).map Prod.fst := by
  intro figs
  induction figs with
  | nil => intro m k h; exact h
  | cons a figs ih =>
    intro m k h
    simp only [List.foldl_cons]
    cases hn : figNum? a with
    | none => exact ih m k h
    | some n =>
      refine ih _ k ?_
      rw [dictInsert_keys]
      by_cases hany : m.any (fun p => p.1 == n)
      · rwa [if_pos hany]
      · rw [if_neg hany]
        exact List.mem_append_left _ h

theorem figMapOf_mem_keys :
    ∀ (figs : List String) (m : List (Nat × String)) (name : String) (N : Nat),
      name ∈ figs → figNum? name = some N →
      N ∈ (figs.foldl
            (fun m name =>
              match figNum? name with
              | some n => dictInsert m n name
              | none => m) m).map Prod.fst := by
  intro figs
  induction figs with
  | nil => intro m name N h; cases h
  | cons a figs ih =>
    intro m name N hmem hparse
    rcases List.mem_cons.mp hmem with h | h
    · subst h
      simp only [List.foldl_cons, hparse]
      apply figMapOf_keys_grow
      rw [dictInsert_keys]
      by_cases hany : m.any (fun p => p.1 == N)
      · rw [if_pos hany]
        obtain ⟨p, hp, hpe⟩ := List.any_eq_true.mp hany
        exact List.mem_map.mpr ⟨p, hp, eq_of_beq hpe⟩
      · rw [if_neg hany]
        exact List.mem_append_right _ (by simp)
    · simp only [List.foldl_cons]
      exact ih _ name N h hparse

theorem subCaptionsGo_cons_some (m : List (Nat × String)) (b : String) (fuel : Nat)
    (ins : List Nat) (c : Char) (cs : List Char) (n : Nat) (r2 : List Char)
    (hm : matchCaption (c :: cs) = some (n, r2)) :
    ∃ insStep outStep, (insStep = ins ∨ insStep = ins ++ [n]) ∧
      subCaptionsGo m b (fuel + 1) ins (c :: cs)
        = ((subCaptionsGo m b fuel insStep r2).1,
           outStep ++ (subCaptionsGo m b fuel insStep r2).2) := by
  rw [subCaptionsGo]
  simp only [hm]
  cases hg : dictGet? m n with
  | some fname2 =>
    by_cases hcond : (fname2 != "" && !ins.contains n) = true
    · simp only [hg, hcond, if_true]
      exact ⟨ins ++ [n], _, Or.inr rfl, rfl⟩
    · simp only [hg, hcond, if_false]
      exact ⟨ins, _, Or.inl rfl, rfl⟩
  | none =>
    simp only [hg]
    exact ⟨ins, _, Or.inl rfl, rfl⟩

theorem scanFirstK_aux (m : List (Nat × String)) (b fname : String) (K : Nat)
    (cap rest : List Char)
    (hget : dictGet? m K = some fname) (hne : fname ≠ "")
    (hcap : matchCaption cap = some (K, rest)) :
    ∀ (L : Nat) (pre : List Char), pre.length ≤ L → ∀ (ins : List Nat), K ∉ ins →
      noCaptionKStart K pre cap →
      ∃ preOut ins2, K ∉ ins2 ∧
        subCaptionsFrom m b ins (pre ++ cap)
          = ((subCaptionsFrom m b (ins2 ++ [K]) rest).1,
             preOut ++ ((imgTag b fname K).toList ++ cap.take (cap.length - rest.length)
               ++ (subCaptionsFrom m b (ins2 ++ [K]) rest).2)) := by
  intro L
  induction L with
  | zero =>
    intro pre hlen ins hK _
    have hpre0 : pre = [] := List.eq_nil_of_length_eq_zero (Nat.le_zero.mp hlen)
    subst hpre0
    refine ⟨[], ins, hK, ?_⟩
    rw [List.nil_append,
      subCaptionsFrom_insert_head m b ins cap rest K fname hget hne (by simpa using hK) hcap]
    simp
  | succ L ih =>
    intro pre hlen ins hK hpre
    cases pre with
    | nil =>
      refine ⟨[], ins, hK, ?_⟩
      rw [List.nil_append,
        subCaptionsFrom_insert_head m b ins cap rest K fname hget hne (by simpa using hK) hcap]
      simp
    | cons c pre₂ =>
      have hlen2 : pre₂.length ≤ L := by simp only [List.length_cons] at hlen; omega
      cases hm : matchCaption ((c :: pre₂) ++ cap) with
      | none =>
        have hpre₂ : noCaptionKStart K pre₂ cap := by
          intro i hi
          have h2 := hpre (i + 1) (by simp only [List.length_cons]; omega)
          simpa using h2
        obtain ⟨preOut₂, ins2, hK2, heq⟩ := ih pre₂ hlen2 ins hK hpre₂
        refine ⟨c :: preOut₂, ins2, hK2, ?_⟩
        have hstep : subCaptionsFrom m b ins ((c :: pre₂) ++ cap)
            = ((subCaptionsFrom m b ins (pre₂ ++ cap)).1,
               c :: (subCaptionsFrom m b ins (pre₂ ++ cap)).2) := by
          unfold subCaptionsFrom
          rw [show ((c :: pre₂) ++ cap).length = (pre₂ ++ cap).length + 1 by simp,
            List.cons_append, subCaptionsGo]
          simp only [← List.cons_append, hm]
        rw [hstep, heq]
        simp
      | some nr =>
        obtain ⟨n, r2⟩ := nr
        have hnK : n ≠ K := by
          intro he
          subst he
          have h0 := hpre 0 (by simp)
          rw [List.drop_zero, hm] at h0
          exact h0 rfl
        obtain ⟨c1, c2, tcap, hcapeq, hc1, hc2⟩ := matchCaption_head hcap
        obtain ⟨j, hj⟩ := matchCaption_no_cross (x := c :: pre₂) (by simp) hc1 hc2
          (by rw [← hcapeq]; exact hm)
        rw [← hcapeq] at hj
        have hj2 : r2 = (c :: pre₂).drop (min j (c :: pre₂).length) ++ cap := by
          rcases Nat.le_total j (c :: pre₂).length with h | h
          · rw [Nat.min_eq_left h]
            exact hj
          · rw [Nat.min_eq_right h, List.drop_length, hj, List.drop_eq_nil_of_le h]
        set d := min j (c :: pre₂).length with hd
        have hlt := matchCaption_length_lt _ _ _ hm
        have hd1 : 1 ≤ d := by
          by_contra h0
          push_neg at h0
          have hd0 : d = 0 := by omega
          rw [hd0, List.drop_zero] at hj2
          rw [hj2] at hlt
          exact absurd hlt (lt_irrefl _)
        obtain ⟨insStep, outStep, hins, hstepeq⟩ :=
          subCaptionsGo_cons_some m b (pre₂ ++ cap).length ins c (pre₂ ++ cap) n r2
            (by rw [← List.cons_append]; exact hm)
        have hKstep : K ∉ insStep := by
          rcases hins with h | h
          · rw [h]; exact hK
          · rw [h]
            intro hmem
            rcases List.mem_append.mp hmem with h2 | h2
            · exact hK h2
            · simp only [List.mem_singleton] at h2
              exact hnK h2.symm
        have hr2len : r2.length ≤ (pre₂ ++ cap).length := by
          simp only [List.cons_append, List.length_cons] at hlt
          omega
        have hfuel : subCaptionsGo m b (pre₂ ++ cap).length insStep r2
            = subCaptionsFrom m b insStep r2 := by
          unfold subCaptionsFrom
          exact subCaptionsGo_fuel m b (pre₂ ++ cap).length r2 insStep hr2len
        have hdroplen : ((c :: pre₂).drop d).length ≤ L := by
          simp only [List.length_drop, List.length_cons]
          simp only [List.length_cons] at hlen
          omega
        obtain ⟨preOut₂, ins2, hK2, heq⟩ := ih ((c :: pre₂).drop d) hdroplen insStep hKstep
          (noCaptionKStart_drop hpre d)
        rw [← hj2] at heq
        refine ⟨outStep ++ preOut₂, ins2, hK2, ?_⟩
        have hwhole : subCaptionsFrom m b ins ((c :: pre₂) ++ cap)
            = subCaptionsGo m b ((pre₂ ++ cap).length + 1) ins (c :: (pre₂ ++ cap)) := by
          unfold subCaptionsFrom
          rw [show ((c :: pre₂) ++ cap).length = (pre₂ ++ cap).length + 1 by simp,
            List.cons_append]
        rw [hwhole, hstepeq, hfuel, heq]
        simp [List.append_assoc]

/-- C3: figure reinsertion is idempotent per figure.  If the figure map sends
`K` to `fname` and the content splits as `pre ++ cap` where no caption match
numbered `K` starts inside `pre` (captions of other figures may occur there)
and `cap` begins with the first caption match numbered `K`, then exactly one
insertion for `K` is recorded, the image tag lands immediately before that
first matching caption — after the scanned prefix output — later
duplicate-numbered captions are re-emitted by the tail scan, which never
inserts `K` again, and `K` never appears in the trailing gallery. -/
theorem insert_idempotent_per_figure (figures : List String) (base fname : String) (K : Nat)
    (pre cap rest : List Char)
    (hget : dictGet? (figMapOf figures) K = some fname)
    (hpre : noCaptionKStart K pre cap)
    (hcap : matchCaption cap = some (K, rest)) :
    (insertedOf (String.mk (pre ++ cap)) figures base).count K = 1
    ∧ (∃ preOut ins2, K ∉ ins2 ∧
        insertedOf (String.mk (pre ++ cap)) figures base
          = (subCaptionsFrom (figMapOf figures) base (ins2 ++ [K]) rest).1
        ∧ (subCaptionsFrom (figMapOf figures) base (ins2 ++ [K]) rest).1.count K = 1
        ∧ scanOutOf (String.mk (pre ++ cap)) figures base
          = preOut ++ ((imgTag base fname K).toList ++ cap.take (cap.length - rest.length)
            ++ (subCaptionsFrom (figMapOf figures) base (ins2 ++ [K]) rest).2))
    ∧ K ∉ missingNumsOf (figMapOf figures)
        (insertedOf (String.mk (pre ++ cap)) figures base) := by
  have hne : fname ≠ "" := dictGet?_ne_empty hget
  obtain ⟨preOut, ins2, hK2, heq⟩ := scanFirstK_aux (figMapOf figures) base fname K cap rest
    hget hne hcap pre.length pre (le_refl _) [] (by simp) hpre
  have hIns : insertedOf (String.mk (pre ++ cap)) figures base
      = (subCaptionsFrom (figMapOf figures) base (ins2 ++ [K]) rest).1 := by
    unfold insertedOf
    rw [show (String.mk (pre ++ cap)).toList = pre ++ cap from rfl, heq]
  have hcount : (subCaptionsFrom (figMapOf figures) base (ins2 ++ [K]) rest).1.count K = 1 := by
    unfold subCaptionsFrom
    rw [subCaptionsGo_count_mem (figMapOf figures) base K rest.length rest (ins2 ++ [K])
      (List.mem_append_right _ (by simp))]
    rw [List.count_append]
    simp [List.count_eq_zero_of_not_mem hK2]
  have hKmem : K ∈ insertedOf (String.mk (pre ++ cap)) figures base := by
    rw [hIns]
    obtain ⟨ex, hex⟩ := subCaptionsGo_ins_extend (figMapOf figures) base rest.length rest
      (ins2 ++ [K])
    unfold subCaptionsFrom
    rw [hex]
    simp
  refine ⟨by rw [hIns]; exact hcount, ⟨preOut, ins2, hK2, hIns, hcount, ?_⟩, ?_⟩
  · unfold scanOutOf
    rw [show (String.mk (pre ++ cap)).toList = pre ++ cap from rfl, heq]
  · intro hmem
    have h2 := (List.mem_filter.mp hmem).2
    simp only [Bool.not_eq_true'] at h2
    exact absurd hKmem (by simpa using h2)

theorem figNum?_figPrefix (ds tail : List Char)
    (hds : ∀ c ∈ ds, c.isDigit = true) (hne : ds ≠ []) :
    figNum? (String.mk ('f' :: 'i' :: 'g' :: (ds ++ '.' :: tail))) = some (digitsVal ds) := by
  unfold figNum?
  have hlit : matchLit "fig".toList (String.mk ('f' :: 'i' :: 'g' :: (ds ++ '.' :: tail))).toList
      = some (ds ++ '.' :: tail) := by
    simp [matchLit]
  simp only [hlit]
  have hmd : matchDigits1 (ds ++ '.' :: tail) = some (digitsVal ds, '.' :: tail) := by
    simp only [matchDigits1]
    rw [takeWhile_all_append ds '.' tail hds (by decide),
      dropWhile_all_append ds '.' tail hds (by decide), if_neg (by simpa using hne)]
  simp only [hmd]

/-- C1 (amended): figure reinsertion keys insertions by the integer in
filenames of the form `fig<N>.<ext>` — the pattern is anchored at the start of
the filename (`re.match`), so only names beginning with `fig` (any case)
followed by digits and a dot are mapped to `N`; a name such as
`p3_fig7.png`, whose first character is not `f`/`F`, gets no key at all.  For
a mapped figure, the image tag is spliced immediately before the first
caption paragraph numbered `N`, even when captions of other figures precede
it in the content. -/
theorem insert_fig_prefix_key :
    (∀ (N : Nat) (ext : String), figNum? ("fig" ++ natStr N ++ "." ++ ext) = some N)
    ∧ (∀ (s : String) (c : Char) (cs : List Char), s.toList = c :: cs → c.toLower ≠ 'f' →
        figNum? s = none)
    ∧ (∀ (figures : List String) (name : String) (N : Nat), name ∈ figures →
        figNum? name = some N →
        ∃ v, dictGet? (figMapOf figures) N = some v ∧ figNum? v = some N)
    ∧ (∀ (figures : List String) (base fname : String) (K : Nat) (pre cap rest : List Char),
        dictGet? (figMapOf figures) K = some fname →
        noCaptionKStart K pre cap → matchCaption cap = some (K, rest) →
        ∃ preOut ins2, K ∉ ins2 ∧
          scanOutOf (String.mk (pre ++ cap)) figures base
            = preOut ++ ((imgTag base fname K).toList ++ cap.take (cap.length - rest.length)
              ++ (subCaptionsFrom (figMapOf figures) base (ins2 ++ [K]) rest).2)) := by
  refine ⟨?_, ?_, ?_, ?_⟩
  · intro N ext
    have hstr : "fig" ++ natStr N ++ "." ++ ext
        = String.mk ('f' :: 'i' :: 'g' :: (natDigits N ++ '.' :: ext.toList)) := by
      apply String.ext
      show ("fig".toList ++ natDigits N ++ ['.'] ++ ext.toList : List Char)
        = 'f' :: 'i' :: 'g' :: (natDigits N ++ '.' :: ext.toList)
      simp [List.append_assoc]
    rw [hstr, figNum?_figPrefix (natDigits N) ext.toList (natDigits_isDigit N) (natDigits_ne_nil N),
      digitsVal_natDigits]
  · intro s c cs hs hc
    have hne : ¬ (c.toLower = ('f' : Char).toLower) := by
      intro h
      rw [show ('f' : Char).toLower = 'f' from by decide] at h
      exact hc h
    unfold figNum?
    rw [hs, show "fig".toList = 'f' :: 'i' :: 'g' :: ([] : List Char) from rfl]
    simp only [matchLit, if_neg hne]
  · intro figures name N hmem hparse
    have hkey : N ∈ (figMapOf figures).map Prod.fst := by
      unfold figMapOf
      exact figMapOf_mem_keys figures [] name N hmem hparse
    obtain ⟨v, hv⟩ := dictGet?_isSome_of_mem _ N hkey
    exact ⟨v, hv, dictGet?_parse hv⟩
  · intro figures base fname K pre cap rest hget hpre hcap
    have hne : fname ≠ "" := dictGet?_ne_empty hget
    obtain ⟨preOut, ins2, hK2, heq⟩ := scanFirstK_aux (figMapOf figures) base fname K cap rest
      hget hne hcap pre.length pre (le_refl _) [] (by simp) hpre
    refine ⟨preOut, ins2, hK2, ?_⟩
    unfold scanOutOf
    rw [show (String.mk (pre ++ cap)).toList = pre ++ cap from rfl, heq]

/-- C4: every mapped figure number with no matched caption appears in the
trailing gallery: the gallery numbers are strictly ascending, the gallery
filenames are pairwise distinct (each such figure appears exactly once), any
mapped number not inserted inline is in the gallery list, and when the map
and the gallery are nonempty the rendered page is the substituted main
content followed by the gallery block. -/
theorem gallery_missing_figures (figures : List String) (content base : String) :
    (missingNumsOf (figMapOf figures) (insertedOf content figures base)).Pairwise (· < ·)
    ∧ (missingOf (figMapOf figures) (insertedOf content figures base)).Nodup
    ∧ (∀ n, n ∈ (figMapOf figures).map Prod.fst →
        n ∉ insertedOf content figures base →
        n ∈ missingNumsOf (figMapOf figures) (insertedOf content figures base))
    ∧ ((figMapOf figures).isEmpty = false →
        (missingOf (figMapOf figures) (insertedOf content figures base)).isEmpty = false →
        insertPdfFiguresInline content figures base
          = String.mk (scanOutOf content figures base) ++ galleryHeader
            ++ String.join ((missingOf (figMapOf figures) (insertedOf content figures base)).map
                 (galleryFig base)) ++ "</div>") := by
  refine ⟨missingNums_pairwise_lt figures _, missingOf_nodup figures _, ?_, ?_⟩
  · intro n hk hnot
    unfold missingNumsOf
    refine List.mem_filter.mpr ⟨(sortKeys_perm (figMapOf figures)).mem_iff.mpr hk, ?_⟩
    simpa using hnot
  · intro hne hmne
    unfold insertedOf at hmne
    unfold insertPdfFiguresInline insertedOf scanOutOf
    simp only [hne, hmne, Bool.false_eq_true, if_false]

/-- C2: for every page, a returning OCR call contributes its element list
alone and a raising one the fallback extractor's blocks alone; an OCR success
is independent of the fallback blocks, and the page loop of `parse_pdf`
processes exactly this per-page choice, page by page. -/
theorem ocr_fallback_exclusive (l : List (Option RawElem)) (e : Unit)
    (blocks blocks2 : List FBlock) (fc pn : Nat) (p : PageInput) (ps : List PageInput) :
    pageRawElements (Except.ok l) blocks = l
    ∧ pageRawElements (Except.error e) blocks = fallbackParsePage blocks
    ∧ pageRawElements (Except.ok l) blocks = pageRawElements (Except.ok l) blocks2
    ∧ parsePdfLoop fc pn (p :: ps)
        = ((parsePdfLoop (processRawElems (pn + 1) fc (pageRawElements p.ocr p.blocks)).1
              (pn + 1) ps).1,
           (processRawElems (pn + 1) fc (pageRawElements p.ocr p.blocks)).2
             ++ (parsePdfLoop (processRawElems (pn + 1) fc (pageRawElements p.ocr p.blocks)).1
                  (pn + 1) ps).2) :=
  ⟨rfl, rfl, rfl, rfl⟩

/-- C6: cropping never fails on a bad four-coordinate bounding box: the
result is always defined, the coordinates are clamped into the image bounds,
and a degenerate clamped box yields the full page image instead of raising. -/
theorem crop_never_fails (w h : Nat) (x1 y1 x2 y2 : Int) :
    (cropImage w h [x1, y1, x2, y2]).isSome = true
    ∧ (cropImage w h [x1, y1, x2, y2] = some CropOut.fullPage
       ∨ ∃ a b c d, cropImage w h [x1, y1, x2, y2] = some (CropOut.cropped a b c d)
           ∧ 0 ≤ a ∧ a < c ∧ c ≤ (w : Int) ∧ 0 ≤ b ∧ b < d ∧ d ≤ (h : Int))
    ∧ ((min (w : Int) x2 ≤ max 0 x1 ∨ min (h : Int) y2 ≤ max 0 y1) →
        cropImage w h [x1, y1, x2, y2] = some CropOut.fullPage) := by
  simp only [cropImage]
  by_cases hdeg : (min (w : Int) x2 ≤ max 0 x1 ∨ min (h : Int) y2 ≤ max 0 y1)
  · rw [if_pos hdeg]
    exact ⟨rfl, Or.inl rfl, fun _ => rfl⟩
  · rw [if_neg hdeg]
    have hdeg2 := hdeg
    push_neg at hdeg2
    refine ⟨rfl,
      Or.inr ⟨_, _, _, _, rfl, le_max_left _ _, hdeg2.1, min_le_left _ _,
        le_max_left _ _, hdeg2.2, min_le_left _ _⟩,
      fun hcon => absurd hcon hdeg⟩

/-- C6 witness: a degenerate box (zero width after clamping) on a 4×4 page
falls back to the full page image. -/
theorem crop_never_fails_witness :
    cropImage 4 4 [2, 2, 2, 5] = some CropOut.fullPage :=
  (crop_never_fails 4 4 2 2 2 5).2.2 (by decide)

/-- C7 (counterexample): the download cache file can be present (here 10
bytes, a truncated download) while the stage still re-contacts the remote,
so presence of the file is not the sole condition for the short-circuit. -/
theorem download_cache_presence_counterexample :
    (some 10 : Option Nat).isSome = true
    ∧ downloadCacheHit (some 10) = false
    ∧ (downloadPdfStage (some 10) (some ())).2 = true := by
  decide

/-- C7 (amended): the parse and translate cache gates short-circuit on file
presence alone and return the stored artifact without touching the remote;
the download gate short-circuits exactly when the cached file is present
*and* larger than 1024 bytes, and otherwise re-contacts the remote. -/
theorem cache_short_circuit :
    (∀ (c : List Elem) (pages : List PageInput), parsePdfStage (some c) pages = (c, false))
    ∧ (∀ (pages : List PageInput), parsePdfStage none pages = (parsePdfElems pages, true))
    ∧ (∀ (pages : List PageInput),
        parsePdfStage (some (parsePdfStage none pages).1) pages
          = ((parsePdfStage none pages).1, false))
    ∧ (∀ (c computed : List TElem), translateStage (some c) computed = (c, false))
    ∧ (∀ (file : Option Nat), downloadCacheHit file = true ↔ ∃ sz, file = some sz ∧ 1024 < sz)
    ∧ (∀ (sz : Nat) (fetch : Option Unit), 1024 < sz →
        downloadPdfStage (some sz) fetch = (some (), false))
    ∧ (∀ (sz : Nat) (fetch : Option Unit), sz ≤ 1024 →
        downloadPdfStage (some sz) fetch = (fetch, true)) := by
  refine ⟨fun c pages => rfl, fun pages => rfl, fun pages => rfl, fun c computed => rfl,
    ?_, ?_, ?_⟩
  · intro file
    match file with
    | none => simp [downloadCacheHit]
    | some sz => simp [downloadCacheHit]
  · intro sz fetch h
    unfold downloadPdfStage downloadCacheHit
    rw [if_pos (by simpa using h)]
  · intro sz fetch h
    unfold downloadPdfStage downloadCacheHit
    rw [if_neg (by simpa using Nat.not_lt.mpr h)]

/-- C7 witness: a 2048-byte cached PDF short-circuits; a 100-byte one is
re-downloaded. -/
theorem cache_short_circuit_witness :
    downloadPdfStage (some 2048) none = (some (), false)
    ∧ downloadPdfStage (some 100) (some ()) = (some (), true) :=
  ⟨cache_short_circuit.2.2.2.2.2.1 2048 none (by decide),
   cache_short_circuit.2.2.2.2.2.2 100 (some ()) (by decide)⟩

theorem chunkGo_inv :
    ∀ (ts batch : List String) (chars : Nat),
      chars = (batch.map String.length).sum →
      ((batch.map String.length).sum ≤ BATCH_LIMIT ∨ ∃ t, batch = [t] ∧ BATCH_LIMIT < t.length) →
      ∀ b ∈ chunkGo batch chars ts,
        (b.map String.length).sum ≤ BATCH_LIMIT ∨ ∃ t, b = [t] ∧ BATCH_LIMIT < t.length := by
  intro ts
  induction ts with
  | nil =>
    intro batch chars hchars hinv b hb
    simp only [chunkGo] at hb
    by_cases hbe : batch.isEmpty
    · rw [if_pos hbe] at hb
      simp at hb
    · rw [if_neg hbe] at hb
      simp only [List.mem_singleton] at hb
      subst hb
      exact hinv
  | cons t ts ih =>
    intro batch chars hchars hinv b hb
    simp only [chunkGo] at hb
    by_cases hc : chars + t.length > BATCH_LIMIT ∧ batch ≠ []
    · rw [if_pos hc] at hb
      rcases List.mem_cons.mp hb with h | h
      · subst h
        exact hinv
      · refine ih [t] t.length (by simp) ?_ b h
        by_cases hl : t.length ≤ BATCH_LIMIT
        · exact Or.inl (by simpa using hl)
        · exact Or.inr ⟨t, rfl, by omega⟩
    · rw [if_neg hc] at hb
      refine ih (batch ++ [t]) (chars + t.length) (by simp [hchars]) ?_ b hb
      by_cases hb0 : batch = []
      · subst hb0
        simp only [List.nil_append]
        by_cases hl : t.length ≤ BATCH_LIMIT
        · exact Or.inl (by simpa using hl)
        · exact Or.inr ⟨t, rfl, by omega⟩
      · have hle : chars + t.length ≤ BATCH_LIMIT := by
          rcases not_and_or.mp hc with h | h
          · omega
          · exact absurd hb0 (by simpa using h)
        refine Or.inl ?_
        simp only [List.map_append, List.sum_append]
        rw [hchars] at hle
        simpa using hle

/-- C8: every batch of texts sent to the translation service by
`translate_paper_content` has total character length at most 3000, except
when the batch is a single text whose own length exceeds 3000. -/
theorem batch_limit_respected (elements : List TElem) (b : List String)
    (hb : b ∈ batchesOf elements) :
    (b.map String.length).sum ≤ BATCH_LIMIT ∨ ∃ t, b = [t] ∧ BATCH_LIMIT < t.length :=
  chunkGo_inv _ [] 0 (by simp) (Or.inl (by simp [BATCH_LIMIT])) b hb

/-- C8 witness: a single short text forms one batch within the limit. -/
theorem batch_limit_respected_witness :
    ((["hi"] : List String).map String.length).sum ≤ BATCH_LIMIT
    ∨ ∃ t, (["hi"] : List String) = [t] ∧ BATCH_LIMIT < t.length :=
  batch_limit_respected [⟨"text", "hi"⟩] ["hi"] (by decide)

/-- C9 (counterexample): a paper whose translation step raises still appears,
but its body is the untranslated markdown, not empty. -/
theorem translate_failure_body_counterexample :
    bodyOf (runPaper
      { paper := { arxivId := "2400.00001" },
        parseHtml := Except.ok (some { markdown := "Hello", figures := [], source := "html" }),
        download := none,
        parsePdfRes := Except.error (),
        translateRes := Except.error () }) = "Hello"
    ∧ ("Hello" : String) ≠ "" := by
  exact ⟨rfl, by decide⟩

/-- C9 (amended): one paper's failure never aborts the batch — every input
paper yields exactly one output paper.  A paper whose PDF download fails or
whose PDF parse raises gets an empty body and no figures; a paper whose
translation raises keeps the untranslated markdown as its body; an exception
escaping `process_paper` is caught at the per-paper boundary and the original
paper dict (whose rendered body is empty) is carried forward. -/
theorem per_paper_error_boundary :
    (∀ (inps : List PaperInput), (runBatch inps).length = inps.length)
    ∧ (∀ (inp : PaperInput), inp.parseHtml = Except.ok none → inp.download = none →
        bodyOf (runPaper inp) = "" ∧ (runPaper inp).figures = [])
    ∧ (∀ (inp : PaperInput) (e : Unit), inp.parseHtml = Except.ok none →
        inp.download = some () → inp.parsePdfRes = Except.error e →
        bodyOf (runPaper inp) = "" ∧ (runPaper inp).figures = [])
    ∧ (∀ (inp : PaperInput) (P : Parsed) (e : Unit), inp.parseHtml = Except.ok (some P) →
        P.markdown ≠ "" → inp.translateRes = Except.error e →
        bodyOf (runPaper inp) = P.markdown)
    ∧ (∀ (inp : PaperInput) (e : Unit), processPaper inp = Except.error e →
        runPaper inp = inp.paper) := by
  refine ⟨fun inps => List.length_map _ _, ?_, ?_, ?_, ?_⟩
  · intro inp h1 h2
    simp [runPaper, processPaper, h1, h2, bodyOf]
  · intro inp e h1 h2 h3
    simp [runPaper, processPaper, h1, h2, h3, bodyOf]
  · intro inp P e h1 hmd h3
    simp [runPaper, processPaper, h1, hmd, h3, bodyOf]
  · intro inp e h
    simp [runPaper, h]

/-- C9 witness: a paper whose download fails appears in the batch output with
an empty body. -/
theorem per_paper_error_boundary_witness :
    (runBatch [{ paper := { arxivId := "a1" }, parseHtml := Except.ok none, download := none,
                 parsePdfRes := Except.error (), translateRes := Except.error () }]).length = 1
    ∧ bodyOf (runPaper
        { paper := { arxivId := "a1" }, parseHtml := Except.ok none, download := none,
          parsePdfRes := Except.error (), translateRes := Except.error () }) = "" := by
  exact ⟨per_paper_error_boundary.1 _, (per_paper_error_boundary.2.1 _ rfl rfl).1⟩

/-- C10: `_translate_batch` returns exactly one string per input text: the
response is split on the separator, a short split keeps the original texts at
the missing tail positions, and extra segments are discarded by truncation. -/
theorem translate_batch_same_length (texts parts : List String) (content : String) :
    (texts.isEmpty = false → translateBatchPost texts content = padTruncate texts (batchParts content))
    ∧ translateBatchPost [] content = []
    ∧ (padTruncate texts parts).length = texts.length
    ∧ (∀ i, parts.length ≤ i → i < texts.length →
        (padTruncate texts parts).getD i "" = texts.getD i "")
    ∧ (texts.length ≤ parts.length → padTruncate texts parts = parts.take texts.length) := by
  refine ⟨?_, rfl, ?_, ?_, ?_⟩
  · intro he
    simp only [translateBatchPost, he, Bool.false_eq_true, if_false]
  · simp only [padTruncate]
    by_cases hlt : parts.length < texts.length
    · rw [if_pos hlt]
      rw [List.length_take, List.length_append, List.length_drop]
      omega
    · rw [if_neg hlt]
      rw [List.length_take]
      omega
  · intro i hge hlt
    have hplt : parts.length < texts.length := by omega
    simp only [padTruncate, if_pos hplt]
    rw [List.getD_eq_getElem?_getD, List.getD_eq_getElem?_getD,
      List.getElem?_take_of_lt hlt, List.getElem?_append_right hge,
      List.getElem?_drop]
    congr 2
    omega
  · intro hge
    simp only [padTruncate, if_neg (Nat.not_lt.mpr hge)]

/-- C1 (counterexample): the claim keys `p3_fig7.png` to 7, but the anchored
`re.match(r"fig(\d+)\.", ...)` gives it no key: the figure map stays empty and
the content containing the caption `Figure 7.` is returned unchanged — no
image tag is spliced for it anywhere. -/
theorem fig_suffix_key_counterexample :
    figNum? "p3_fig7.png" = none
    ∧ insertPdfFiguresInline "<p>Figure 7. x</p>" ["p3_fig7.png"] "b/"
        = "<p>Figure 7. x</p>" := by
  decide

/-- C1 witness: `fig7.png` is keyed to 7; a name not starting with `f` gets no
key; a listed parsable name is in the map; a mapped figure is spliced before
its first caption. -/
theorem insert_fig_prefix_key_witness :
    figNum? ("fig" ++ natStr 7 ++ "." ++ "png") = some 7
    ∧ figNum? "p7_fig3.png" = none
    ∧ (∃ v, dictGet? (figMapOf ["FIG3.jpg"]) 3 = some v ∧ figNum? v = some 3)
    ∧ (∃ preOut ins2, 3 ∉ ins2 ∧
        scanOutOf (String.mk (([] : List Char) ++ "<p><strong>圖 3.</strong>t".toList))
            ["FIG3.jpg"] "g/"
          = preOut ++ ((imgTag "g/" "FIG3.jpg" 3).toList
            ++ "<p><strong>圖 3.</strong>t".toList.take
                ("<p><strong>圖 3.</strong>t".toList.length - "t".toList.length)
            ++ (subCaptionsFrom (figMapOf ["FIG3.jpg"]) "g/" (ins2 ++ [3]) "t".toList).2)) :=
  ⟨insert_fig_prefix_key.1 7 "png",
   insert_fig_prefix_key.2.1 "p7_fig3.png" 'p' "7_fig3.png".toList (by decide) (by decide),
   insert_fig_prefix_key.2.2.1 ["FIG3.jpg"] "FIG3.jpg" 3 (by decide) (by decide),
   insert_fig_prefix_key.2.2.2 ["FIG3.jpg"] "g/" "FIG3.jpg" 3 []
     "<p><strong>圖 3.</strong>t".toList "t".toList (by decide) (by decide) (by decide)⟩

/-- C3 witness: with `fig1.png` and `fig2.png` mapped, a content whose prefix
already carries the caption `Figure 1.` and whose tail starts with the first
of two captions numbered 2: the insertion count for 2 is one, the tag for 2
lands before its first caption after the scanned prefix, and 2 is not in the
gallery list. -/
theorem insert_idempotent_per_figure_witness :
    (insertedOf (String.mk ("<p>Figure 1. a</p>".toList
        ++ "<p>Figure 2. b</p><p>Figure 2. c</p>".toList))
        ["fig1.png", "fig2.png"] "b/").count 2 = 1
    ∧ (∃ preOut ins2, 2 ∉ ins2 ∧
        insertedOf (String.mk ("<p>Figure 1. a</p>".toList
            ++ "<p>Figure 2. b</p><p>Figure 2. c</p>".toList)) ["fig1.png", "fig2.png"] "b/"
          = (subCaptionsFrom (figMapOf ["fig1.png", "fig2.png"]) "b/" (ins2 ++ [2])
              " b</p><p>Figure 2. c</p>".toList).1
        ∧ (subCaptionsFrom (figMapOf ["fig1.png", "fig2.png"]) "b/" (ins2 ++ [2])
            " b</p><p>Figure 2. c</p>".toList).1.count 2 = 1
        ∧ scanOutOf (String.mk ("<p>Figure 1. a</p>".toList
              ++ "<p>Figure 2. b</p><p>Figure 2. c</p>".toList)) ["fig1.png", "fig2.png"] "b/"
          = preOut ++ ((imgTag "b/" "fig2.png" 2).toList
            ++ "<p>Figure 2. b</p><p>Figure 2. c</p>".toList.take
                ("<p>Figure 2. b</p><p>Figure 2. c</p>".toList.length
                  - " b</p><p>Figure 2. c</p>".toList.length)
            ++ (subCaptionsFrom (figMapOf ["fig1.png", "fig2.png"]) "b/" (ins2 ++ [2])
                  " b</p><p>Figure 2. c</p>".toList).2))
    ∧ 2 ∉ missingNumsOf (figMapOf ["fig1.png", "fig2.png"])
        (insertedOf (String.mk ("<p>Figure 1. a</p>".toList
            ++ "<p>Figure 2. b</p><p>Figure 2. c</p>".toList)) ["fig1.png", "fig2.png"] "b/") :=
  insert_idempotent_per_figure ["fig1.png", "fig2.png"] "b/" "fig2.png" 2
    "<p>Figure 1. a</p>".toList "<p>Figure 2. b</p><p>Figure 2. c</p>".toList
    " b</p><p>Figure 2. c</p>".toList (by decide) (by decide) (by decide)

/-- C4 witness: with figures `fig2.png`, `fig1.png` and no captions in the
content, figure 1 is in the gallery list and the page is the main content
followed by the gallery block. -/
theorem gallery_missing_figures_witness :
    1 ∈ missingNumsOf (figMapOf ["fig2.png", "fig1.png"])
          (insertedOf "" ["fig2.png", "fig1.png"] "g2/")
    ∧ insertPdfFiguresInline "" ["fig2.png", "fig1.png"] "g2/"
        = String.mk (scanOutOf "" ["fig2.png", "fig1.png"] "g2/") ++ galleryHeader
          ++ String.join ((missingOf (figMapOf ["fig2.png", "fig1.png"])
               (insertedOf "" ["fig2.png", "fig1.png"] "g2/")).map (galleryFig "g2/"))
          ++ "</div>" :=
  ⟨(gallery_missing_figures ["fig2.png", "fig1.png"] "" "g2/").2.2.1 1 (by decide) (by decide),
   (gallery_missing_figures ["fig2.png", "fig1.png"] "" "g2/").2.2.2 (by decide) (by decide)⟩

/-- C10 witness: two inputs and a one-part split give two outputs, the second
being the original text; the response post-processing factors through
`padTruncate`. -/
theorem translate_batch_same_length_witness :
    translateBatchPost ["a", "b"] "x" = padTruncate ["a", "b"] (batchParts "x")
    ∧ (padTruncate ["a", "b"] ["x"]).length = (["a", "b"] : List String).length
    ∧ (padTruncate ["a", "b"] ["x"]).getD 1 "" = (["a", "b"] : List String).getD 1 "" :=
  ⟨(translate_batch_same_length ["a", "b"] ["x"] "x").1 (by decide),
   (translate_batch_same_length ["a", "b"] ["x"] "x").2.2.1,
   (translate_batch_same_length ["a", "b"] ["x"] "x").2.2.2.1 1 (by decide) (by decide)⟩

end HfPapers
